import Mathlib

/-!
Verification development for the AugmentCode data-cleanup tool.

The definitions below are a shallow embedding of the program's core:
 - the string-rewriting primitives used by `account_cleaner._clean_account_file`
   (Python `str.replace` and `re.sub` with literal patterns wrapped in word
   boundaries), modelled on `List Char`;
 - the backup manager (`backup_manager.py`): an association-list file system,
   the per-run JSON manifest, `backup_file` and `restore_from_backup`;
 - the cleanup run's backup-then-mutate sequencing for account files,
   database files and telemetry config files, instrumented with an event
   trace;
 - the orchestrator `data_cleaner.perform_cleanup` with sub-operation
   results abstracted as oracles;
 - the SQLite table model used by `database_cleaner.py` for account-table
   and keyword deletion;
 - process termination (`utils.terminate_augmentcode_processes`).

Machine strings are `List Char`; the word-character class is the ASCII
reading of Python's `\w` (`[A-Za-z0-9_]`), which agrees with Python on the
ASCII inputs at issue.  SQLite `LIKE '%kw%'` is modelled as case-insensitive
(ASCII folding) substring containment, faithful for wildcard-free keywords
such as `"augment"`.
-/

namespace AugmentClean

/-! ## String primitives -/

/-- ASCII word character, the `\w` class used by Python's `\b` on ASCII text. -/
def isWordC (c : Char) : Bool := c.isAlphanum || c == '_'

/-- Word-character test on an optional character; absent (string edge) counts
as non-word, which is exactly how `\b` treats the ends of the subject. -/
def optWord : Option Char → Bool
  | some c => isWordC c
  | none => false

/-- The redaction token `'[REMOVED]'` from `account_cleaner.py`. -/
def tokenL : List Char := "[REMOVED]".toList

/-- `re` match of `\b<px>\b` (with `px` a literal, `re.escape`d pattern) at the
current scan position: `prev` is the character just before the position (none
at the start of the subject), `s` the remaining subject.  The two boundary
tests are the `\b` before and after the literal. -/
def wwMatchAt (px : List Char) (prev : Option Char) (s : List Char) : Bool :=
  !px.isEmpty && px.isPrefixOf s
    && (optWord prev != optWord px.head?)
    && (optWord px.getLast? != optWord (s.drop px.length).head?)

/-- Python `content.replace(t, r)`: replace every occurrence of `t`
left-to-right, non-overlapping.  (For empty `t` the model is the identity;
the program only ever replaces non-empty email strings.) -/
def replaceAll (t r : List Char) : List Char → List Char
  | [] => []
  | c :: rest =>
    if !t.isEmpty && t.isPrefixOf (c :: rest) then
      r ++ replaceAll t r (rest.drop (t.length - 1))
    else
      c :: replaceAll t r rest
termination_by s => s.length
decreasing_by
  · simp only [List.length_cons]
    have h := List.length_drop (t.length - 1) rest
    omega
  · simp only [List.length_cons]
    omega

/-- `re.sub(rf'\b{re.escape(px)}\b', tok, ·)` scanning loop: on a match the
scan resumes after the matched span (with the last matched character as the
new left context), otherwise it advances one character. -/
def wordSubAux (px tok : List Char) (prev : Option Char) : List Char → List Char
  | [] => []
  | c :: rest =>
    if wwMatchAt px prev (c :: rest) then
      tok ++ wordSubAux px tok px.getLast? (rest.drop (px.length - 1))
    else
      c :: wordSubAux px tok (some c) rest
termination_by s => s.length
decreasing_by
  · simp only [List.length_cons]
    have h := List.length_drop (px.length - 1) rest
    omega
  · simp only [List.length_cons]
    omega

/-- Whole-word replacement of the literal `px` by `tok`, i.e.
`re.sub(rf'\b{re.escape(px)}\b', tok, s)`. -/
def wordSub (px tok s : List Char) : List Char := wordSubAux px tok none s

/-- `target_email.split('@')[0]`: the local part of the email. -/
def localPart (t : List Char) : List Char := t.takeWhile (fun c => c != '@')

/-! ## Account-file content cleaning (`account_cleaner._clean_account_file`) -/

/-- The `remove_all` branch: every discovered email is removed by a plain
substring replace; every discovered username is removed as a whole word, but
only when it is longer than 4 characters. -/
def removeAllClean (emails usernames : List (List Char)) (content : List Char) :
    List Char :=
  let c1 := emails.foldl (fun acc e => replaceAll e tokenL acc) content
  usernames.foldl (fun acc u => if 4 < u.length then wordSub u tokenL acc else acc) c1

/-- The `elif target_email` branch: replace the literal email everywhere,
then — if the local part is longer than 3 characters — replace the local part
as a whole word. -/
def targetedClean (t : List Char) (content : List Char) : List Char :=
  let c1 := replaceAll t tokenL content
  if 3 < (localPart t).length then wordSub (localPart t) tokenL c1 else c1

/-- Full content transformation of `_clean_account_file` (the file write is
modelled elsewhere; writing identical content and skipping the write are
indistinguishable at the level of file contents). -/
def cleanAccountFileContent (removeAll : Bool) (targetEmail : List Char)
    (emails usernames : List (List Char)) (content : List Char) : List Char :=
  if removeAll then removeAllClean emails usernames content
  else if !targetEmail.isEmpty then targetedClean targetEmail content
  else content

/-! ## Backup manager model (`backup_manager.py`)

Files are an association list from path to byte content (a `String`); a
write shadows earlier entries.  The per-run `backup_manifest.json` side-car
is `some items` when readable and `none` when missing or unreadable
(`SafeFileOperations.safe_read_json` returning `None`). -/

/-- File system: association list, first entry wins. -/
abbrev Fs := List (String × String)

def fsGet : Fs → String → Option String
  | [], _ => none
  | (q, v) :: rest, p => if p = q then some v else fsGet rest p

def fsSet (fs : Fs) (p c : String) : Fs := (p, c) :: fs

/-- One entry of the manifest's `items` array. -/
structure MItem where
  itemType : String
  source : String
  destination : String
  size : Nat
deriving DecidableEq

/-- `Path.name`: the final path component. -/
def baseName (p : String) : String :=
  match (p.splitOn "/").reverse with
  | [] => p
  | x :: _ => x

/-- Backup-run state: the files plus the run's manifest side-car
(`none` = missing or unreadable). -/
structure CState where
  fs : Fs
  manifest : Option (List MItem)
deriving DecidableEq

/-- Environment oracles for the failure modes of `backup_file`:
`copyOk` decides whether `shutil.copy2` raises (an exception makes
`backup_file` return `False`); `manifestWriteOk` decides whether the
manifest write-back of `_update_manifest`'s `safe_write_json` persists
(its `False` return is ignored by the source, so a failed write-back
leaves the side-car without the new entry while `backup_file` still
returns `True`). -/
structure CEnv where
  copyOk : String → Bool
  telemetryRewrite : String → String
  dbRewrite : String → String
  manifestWriteOk : String → Bool

/-- Observable events of a cleanup run, used to state the
backup-before-mutate invariant. -/
inductive CEvent where
  | copyFile (src dest : String)
  | manifestAdd (src : String)
  | mutateAttempt (path : String)
deriving DecidableEq

/-- `BackupManager._update_manifest`: read the side-car; if readable, append
the item and write the manifest back; a missing or unreadable side-car is
silently ignored, and so is a failing write-back (`safe_write_json` catches
`PermissionError`/`OSError` and its `False` return is dropped), in which
case the on-disk manifest keeps its previous items and no entry is
recorded. -/
def updateManifest (env : CEnv) (man : Option (List MItem)) (it : MItem) :
    Option (List MItem) × List CEvent :=
  match man with
  | some m =>
    if env.manifestWriteOk it.source then
      (some (m ++ [it]), [CEvent.manifestAdd it.source])
    else
      (some m, [])
  | none => (none, [])

/-- `BackupManager.backup_file`: missing source → `False`; otherwise copy to
the destination (under `relative_path` or `files/<name>`), then update the
manifest, then return `True`.  A copy failure returns `False` and changes
nothing; a manifest-update failure is NOT reflected in the return value. -/
def backupFile (env : CEnv) (st : CState) (src backupDir : String)
    (rel : Option String) : Bool × CState × List CEvent :=
  match fsGet st.fs src with
  | none => (false, st, [])
  | some content =>
    let dest := match rel with
      | some r => backupDir ++ "/" ++ r
      | none => backupDir ++ "/files/" ++ baseName src
    if env.copyOk src then
      let um := updateManifest env st.manifest ⟨"file", src, dest, content.length⟩
      (true, ⟨fsSet st.fs dest content, um.1⟩, CEvent.copyFile src dest :: um.2)
    else (false, st, [])

/-- `BackupManager.create_timestamped_backup_dir` writes a fresh manifest
with an empty `items` list; the return value of `safe_write_json` is
ignored, so a failed write leaves the run without a readable manifest. -/
def createTimestampedBackupDir (writeOk : Bool) : Option (List MItem) :=
  if writeOk then some [] else none

/-- One iteration of the restore loop of
`BackupManager.restore_from_backup`: `file` and `directory` items copy the
backed-up content back to the recorded source path and count as restored
when the backup destination still exists; `registry` (and anything else)
only logs and does not count. -/
def restoreItem (fs : Fs) (it : MItem) : Fs × Bool :=
  if it.itemType = "file" then
    match fsGet fs it.destination with
    | some c => (fsSet fs it.source c, true)
    | none => (fs, false)
  else if it.itemType = "directory" then
    match fsGet fs it.destination with
    | some c => (fsSet fs it.source c, true)
    | none => (fs, false)
  else (fs, false)

def restoreItems (fs : Fs) : List MItem → Fs × Nat
  | [] => (fs, 0)
  | it :: rest =>
    let (fs1, ok) := restoreItem fs it
    let (fs2, n) := restoreItems fs1 rest
    (fs2, (if ok then 1 else 0) + n)

/-- `BackupManager.restore_from_backup`: no readable manifest → `False`;
otherwise restore the items and return `success_count > 0`. -/
def restoreFromBackup (fs : Fs) (man : Option (List MItem)) : Bool × Fs :=
  match man with
  | none => (false, fs)
  | some items =>
    let (fs1, n) := restoreItems fs items
    (decide (0 < n), fs1)

/-! ## Cleanup-run sequencing with an event trace

`clean_account_data` (account_cleaner.py), `clean_database`
(database_cleaner.py) and `_modify_config_file_ids` (telemetry_manager.py)
all back an artifact up before mutating it and skip the mutation when the
backup fails.  The functions below mirror those loops and additionally
record the observable events. -/

/-- Discovered account data of one file, as passed to `clean_account_data`
through `cleanup_options['account_files']`. -/
structure AccountFileInfo where
  file : String
  emails : List String
  usernames : List String

/-- `_clean_account_file`: read, transform, write back.  A missing file
makes `open` raise, which the function reports as `False`. -/
def cleanAccountFileFs (fs : Fs) (info : AccountFileInfo)
    (targetEmail : String) (removeAll : Bool) : Bool × Fs :=
  match fsGet fs info.file with
  | none => (false, fs)
  | some content =>
    let c1 := cleanAccountFileContent removeAll targetEmail.toList
      (info.emails.map String.toList) (info.usernames.map String.toList)
      content.toList
    (true, fsSet fs info.file (String.mk c1))

/-- `AccountDataCleaner.clean_account_data`: per file, back up into
`account_files/<name>`; on a failed backup record failure and `continue`
(the file is not mutated); otherwise clean the file.  The aggregate result
is the AND of every step. -/
def cleanAccountData (env : CEnv) (st : CState) (backupDir : String)
    (targetEmail : String) (removeAll : Bool) :
    List AccountFileInfo → Bool × CState × List CEvent
  | [] => (true, st, [])
  | info :: rest =>
    let b := backupFile env st info.file backupDir
      (some ("account_files/" ++ baseName info.file))
    if b.1 then
      let c := cleanAccountFileFs b.2.1.fs info targetEmail removeAll
      let r :=
        cleanAccountData env ⟨c.2, b.2.1.manifest⟩ backupDir targetEmail removeAll rest
      (c.1 && r.1, r.2.1, b.2.2 ++ CEvent.mutateAttempt info.file :: r.2.2)
    else
      let r := cleanAccountData env b.2.1 backupDir targetEmail removeAll rest
      (false, r.2.1, b.2.2 ++ r.2.2)

/-- `DatabaseCleaner.clean_database` (sequencing skeleton): missing file →
`False`; failed backup into `database/<name>` → `False` with no mutation;
otherwise the database is mutated (the SQL work itself is modelled by the
`dbRewrite` oracle; its row-level semantics is modelled separately below). -/
def cleanDatabase (env : CEnv) (st : CState) (dbPath backupDir : String) :
    Bool × CState × List CEvent :=
  match fsGet st.fs dbPath with
  | none => (false, st, [])
  | some _ =>
    let b := backupFile env st dbPath backupDir
      (some ("database/" ++ baseName dbPath))
    if b.1 then
      let fs2 := match fsGet b.2.1.fs dbPath with
        | some c => fsSet b.2.1.fs dbPath (env.dbRewrite c)
        | none => b.2.1.fs
      (true, ⟨fs2, b.2.1.manifest⟩, b.2.2 ++ [CEvent.mutateAttempt dbPath])
    else (false, b.2.1, b.2.2)

/-- The `for db_file in self.database_files` loop of `perform_cleanup`. -/
def cleanDatabases (env : CEnv) (st : CState) (backupDir : String) :
    List String → Bool × CState × List CEvent
  | [] => (true, st, [])
  | db :: rest =>
    let d := cleanDatabase env st db backupDir
    let r := cleanDatabases env d.2.1 backupDir rest
    (d.1 && r.1, r.2.1, d.2.2 ++ r.2.2)

/-- `TelemetryManager._modify_config_file_ids`: per discovered id, back the
file up into `config_files/<name>` unless this run already backed it up; on
a failed backup `continue` (no mutation of that file at that iteration);
otherwise rewrite the id in place. -/
def modifyConfigIds (env : CEnv) (st : CState) (backupDir : String)
    (modified : List String) : List String → Bool × CState × List CEvent
  | [] => (true, st, [])
  | f :: rest =>
    if modified.contains f then
      let fs2 := match fsGet st.fs f with
        | some c => fsSet st.fs f (env.telemetryRewrite c)
        | none => st.fs
      let r := modifyConfigIds env ⟨fs2, st.manifest⟩ backupDir modified rest
      (r.1, r.2.1, CEvent.mutateAttempt f :: r.2.2)
    else
      let b := backupFile env st f backupDir
        (some ("config_files/" ++ baseName f))
      if b.1 then
        let fs2 := match fsGet b.2.1.fs f with
          | some c => fsSet b.2.1.fs f (env.telemetryRewrite c)
          | none => b.2.1.fs
        let r := modifyConfigIds env ⟨fs2, b.2.1.manifest⟩ backupDir (f :: modified) rest
        (r.1, r.2.1, b.2.2 ++ CEvent.mutateAttempt f :: r.2.2)
      else
        let r := modifyConfigIds env b.2.1 backupDir modified rest
        (false, r.2.1, b.2.2 ++ r.2.2)

/-- The event trace of one cleanup run over config files, database files and
account files, in the order `perform_cleanup` drives them. -/
def cleanupRunEvents (env : CEnv) (st0 : CState) (backupDir : String)
    (configFiles dbFiles : List String) (acctFiles : List AccountFileInfo)
    (targetEmail : String) (removeAll : Bool) : CState × List CEvent :=
  let t := modifyConfigIds env st0 backupDir [] configFiles
  let d := cleanDatabases env t.2.1 backupDir dbFiles
  let a := cleanAccountData env d.2.1 backupDir targetEmail removeAll acctFiles
  (a.2.1, t.2.2 ++ d.2.2 ++ a.2.2)

/-- The backup-before-mutate invariant on a trace: scanning left to right,
every `mutateAttempt p` is preceded by a `manifestAdd p`. -/
def guardedFrom (backed : List String) : List CEvent → Bool
  | [] => true
  | CEvent.manifestAdd s :: rest => guardedFrom (s :: backed) rest
  | CEvent.mutateAttempt p :: rest => backed.contains p && guardedFrom backed rest
  | CEvent.copyFile _ _ :: rest => guardedFrom backed rest

/-! ## Orchestrator (`data_cleaner.FreeAugmentCodeCleaner.perform_cleanup`)

The four sub-operations return booleans; their outcomes are abstracted as
oracles so that the aggregation logic itself is the object of study. -/

/-- The cleanup categories selected in `cleanup_options`. -/
structure CleanupOptions where
  modifyTelemetryIds : Bool
  cleanDatabase : Bool
  cleanWorkspace : Bool
  cleanAccountData : Bool

/-- Oracle for the boolean results of the sub-operations. -/
structure SubOpResults where
  telemetryResult : Bool
  dbResult : String → Bool
  workspaceResult : String → Bool
  accountResult : Bool

/-- The steps `perform_cleanup` attempts, in order. -/
inductive OrchStep where
  | createBackupDir
  | telemetry
  | database (db : String)
  | workspace (w : String)
  | account
deriving DecidableEq

/-- `perform_cleanup`: create the backup dir, then run every selected
category (one step per database file and per workspace), AND-ing each
result into `success` and never stopping early; finally report a status
string that distinguishes full success from completion with errors.
Returns (aggregate success, status text, attempted steps in order). -/
def performCleanup (r : SubOpResults) (opts : CleanupOptions)
    (dbFiles wsLocs : List String) : Bool × String × List OrchStep :=
  let s0 := true
  let (s1, ev1) :=
    if opts.modifyTelemetryIds then (s0 && r.telemetryResult, [OrchStep.telemetry])
    else (s0, ([] : List OrchStep))
  let (s2, ev2) :=
    if opts.cleanDatabase then
      dbFiles.foldl
        (fun (acc : Bool × List OrchStep) db =>
          (acc.1 && r.dbResult db, acc.2 ++ [OrchStep.database db]))
        (s1, [])
    else (s1, [])
  let (s3, ev3) :=
    if opts.cleanWorkspace then
      wsLocs.foldl
        (fun (acc : Bool × List OrchStep) w =>
          (acc.1 && r.workspaceResult w, acc.2 ++ [OrchStep.workspace w]))
        (s2, [])
    else (s2, [])
  let (s4, ev4) :=
    if opts.cleanAccountData then (s3 && r.accountResult, [OrchStep.account])
    else (s3, ([] : List OrchStep))
  let status :=
    if s4 then "Data cleanup completed successfully!"
    else "Data cleanup completed with some errors"
  (s4, status, OrchStep.createBackupDir :: (ev1 ++ ev2 ++ ev3 ++ ev4))

/-! ## SQLite table model (`database_cleaner.py`) -/

/-- ASCII lower-casing, as SQLite's `LIKE` and Python's `.lower()` act on
the ASCII column names and keywords in play. -/
def asciiLower (c : Char) : Char :=
  if 'A' ≤ c ∧ c ≤ 'Z' then Char.ofNat (c.toNat + 32) else c

/-- ASCII upper-casing, for `col[2].upper()` on declared column types. -/
def asciiUpper (c : Char) : Char :=
  if 'a' ≤ c ∧ c ≤ 'z' then Char.ofNat (c.toNat - 32) else c

/-- Substring containment on character lists (Python's `in`, SQLite's
`LIKE '%needle%'` for a wildcard-free needle). -/
def listContains (hay needle : List Char) : Bool :=
  hay.tails.any (fun t => needle.isPrefixOf t)

/-- Python `needle in hay.lower()` for an already-lowercase needle. -/
def containsLower (hay : String) (needle : String) : Bool :=
  listContains (hay.toList.map asciiLower) needle.toList

/-- Python `needle in hay.upper()` for an already-uppercase needle. -/
def containsUpper (hay : String) (needle : String) : Bool :=
  listContains (hay.toList.map asciiUpper) needle.toList

structure DbColumn where
  name : String
  declType : String
deriving DecidableEq

/-- An SQLite storage value. -/
inductive SQLValue where
  | nullV
  | intV (n : Int)
  | textV (s : String)
deriving DecidableEq

/-- A table: its declared columns and its rows (each row aligned with
`cols`). -/
structure DbTable where
  cols : List DbColumn
  rows : List (List SQLValue)
deriving DecidableEq

/-- Text-like column: declared type contains TEXT, VARCHAR or CHAR
(`_analyze_table` and the `PRAGMA table_info` scans). -/
def isTextType (ty : String) : Bool :=
  containsUpper ty "TEXT" || containsUpper ty "VARCHAR" || containsUpper ty "CHAR"

/-- Indices of the text-like columns of a table. -/
def textColIdxs (t : DbTable) : List Nat :=
  (t.cols.enum.filter (fun p => isTextType p.2.declType)).map (fun p => p.1)

/-- `LIKE '%kw%'` on one stored value: NULL never matches; integers are
compared through their decimal rendering; text case-insensitively. -/
def likeContains (v : SQLValue) (kw : String) : Bool :=
  match v with
  | SQLValue.nullV => false
  | SQLValue.intV n =>
      listContains ((toString n).toList.map asciiLower) (kw.toList.map asciiLower)
  | SQLValue.textV s =>
      listContains (s.toList.map asciiLower) (kw.toList.map asciiLower)

/-- Does the row contain the keyword in some text-like column? -/
def rowHasKeyword (t : DbTable) (kw : String) (r : List SQLValue) : Bool :=
  (textColIdxs t).any (fun i =>
    match r.get? i with
    | some v => likeContains v kw
    | none => false)

/-- `DELETE FROM t WHERE p` with `cursor.rowcount`: the surviving rows and
the number of deleted rows. -/
def deleteRowsWhere (rows : List (List SQLValue)) (p : List SQLValue → Bool) :
    List (List SQLValue) × Nat :=
  (rows.filter (fun r => !p r), (rows.filter p).length)

/-- `DatabaseCleaner._delete_records_with_keyword`: no text-like columns →
nothing deleted, count 0; otherwise a single `DELETE` with a disjunctive
`LIKE '%kw%'` predicate over every text-like column. -/
def deleteRecordsWithKeyword (t : DbTable) (kw : String) : DbTable × Nat :=
  if (textColIdxs t).isEmpty then (t, 0)
  else
    let (rows1, n) := deleteRowsWhere t.rows (rowHasKeyword t kw)
    (⟨t.cols, rows1⟩, n)

/-- Email-like columns of `_clean_account_table`: name (lower-cased)
contains `email`, `mail` or `e_mail`.  (User-identifier columns are the
`elif` arm and never drive a delete.) -/
def emailColumns (t : DbTable) : List String :=
  (t.cols.filter (fun c =>
    containsLower c.name "email" || containsLower c.name "mail" ||
      containsLower c.name "e_mail")).map (fun c => c.name)

/-- Does the row's named column hold exactly the target email?  (SQL
`col = ?` with a text parameter: NULL and non-text storage never compare
equal.) -/
def rowMatchesEmailCol (t : DbTable) (col : String) (target : String)
    (r : List SQLValue) : Bool :=
  match t.cols.findIdx? (fun c => c.name == col) with
  | some i =>
    match r.get? i with
    | some (SQLValue.textV s) => s == target
    | _ => false
  | none => false

/-- `DatabaseCleaner._clean_account_table`: with a target email and at least
one email-like column, run one `DELETE ... WHERE col = target` per
email-like column, summing the row counts; otherwise `DELETE FROM table`
wholesale.  Returns the surviving table and the deleted-row count. -/
def cleanAccountTable (t : DbTable) (targetEmail : String) : DbTable × Nat :=
  let ecols := emailColumns t
  if !(targetEmail == "") && !ecols.isEmpty then
    let (rows1, cnt) := ecols.foldl
      (fun (acc : List (List SQLValue) × Nat) col =>
        let (rs, n) := deleteRowsWhere acc.1 (fun r => rowMatchesEmailCol t col targetEmail r)
        (rs, acc.2 + n))
      (t.rows, 0)
    (⟨t.cols, rows1⟩, cnt)
  else
    (⟨t.cols, []⟩, t.rows.length)

/-! ## Process termination (`utils.IDEDetector.terminate_augmentcode_processes`) -/

/-- Behaviour of one process under `psutil`, as far as the termination loop
can observe it: the `running` payload is the number of time-units the
process takes to exit after `terminate()` (`none` = it never exits). -/
inductive ProcState where
  | noSuchProcess
  | accessDenied
  | otherError (msg : String)
  | notRunning
  | running (exitTime : Option Nat)
deriving DecidableEq

structure ProcEntry where
  pid : Nat
  ide : String
  state : ProcState
deriving DecidableEq

/-- Primitive process operations issued by the loop, in order. -/
inductive PAction where
  | sendTerminate (pid : Nat)
  | waitFor (pid : Nat) (timeout : Nat)
  | sendKill (pid : Nat)
deriving DecidableEq

structure TermOutcome where
  pid : Nat
  ide : String
  method : String
deriving DecidableEq

structure FailOutcome where
  pid : Nat
  ide : String
  error : String
deriving DecidableEq

structure TermResults where
  terminated : List TermOutcome
  failed : List FailOutcome
  warnings : List String
deriving DecidableEq

/-- `process.wait(timeout=10)` succeeds iff the process exits within the
bound. -/
def exitsWithin (timeout : Nat) : Option Nat → Bool
  | some n => n ≤ timeout
  | none => false

/-- The bounded graceful wait of `process.wait(timeout=10)`. -/
def gracefulTimeout : Nat := 10

/-- One iteration of the termination loop: `force` kills outright; otherwise
terminate gracefully, wait up to `gracefulTimeout`, and on timeout force-kill
with method `force_kill_after_timeout` plus a warning.  An already-gone
process reports `already_terminated`; access denied goes to `failed`; a
process whose `is_running()` is false is silently skipped. -/
def terminateOne (force : Bool) (p : ProcEntry) : TermResults × List PAction :=
  match p.state with
  | ProcState.noSuchProcess =>
      (⟨[⟨p.pid, p.ide, "already_terminated"⟩], [], []⟩, [])
  | ProcState.accessDenied =>
      (⟨[], [⟨p.pid, p.ide, "Access denied - try running as administrator"⟩], []⟩, [])
  | ProcState.otherError m => (⟨[], [⟨p.pid, p.ide, m⟩], []⟩, [])
  | ProcState.notRunning => (⟨[], [], []⟩, [])
  | ProcState.running et =>
    if force then
      (⟨[⟨p.pid, p.ide, "force_kill"⟩], [], []⟩, [PAction.sendKill p.pid])
    else if exitsWithin gracefulTimeout et then
      (⟨[⟨p.pid, p.ide, "graceful"⟩], [], []⟩,
       [PAction.sendTerminate p.pid, PAction.waitFor p.pid gracefulTimeout])
    else
      (⟨[⟨p.pid, p.ide, "force_kill_after_timeout"⟩], [],
        ["Had to force kill " ++ p.ide ++ " (PID: " ++ toString p.pid ++ ")"]⟩,
       [PAction.sendTerminate p.pid, PAction.waitFor p.pid gracefulTimeout,
        PAction.sendKill p.pid])

/-- `terminate_augmentcode_processes(process_list, force)`: fold the loop
over the process list, accumulating `terminated`, `failed`, `warnings` and
the issued primitive actions. -/
def terminateAugmentProcesses (procs : List ProcEntry) (force : Bool) :
    TermResults × List PAction :=
  procs.foldl
    (fun acc p =>
      let (d, as) := terminateOne force p
      (⟨acc.1.terminated ++ d.terminated, acc.1.failed ++ d.failed,
        acc.1.warnings ++ d.warnings⟩, acc.2 ++ as))
    (⟨[], [], []⟩, [])

/-! ## Auxiliary definitions used by the theorem statements and proofs -/

/-- Names whose manifest entry has been recorded once the trace has been
scanned (the accumulator of `guardedFrom`). -/
def accB (backed : List String) : List CEvent → List String
  | [] => backed
  | CEvent.manifestAdd s :: rest => accB (s :: backed) rest
  | CEvent.mutateAttempt _ :: rest => accB backed rest
  | CEvent.copyFile _ _ :: rest => accB backed rest

/-- `\b px \b` matches at no position of the subject, given left context
`prev` (scanning one character at a time). -/
def noMatchFrom (px : List Char) (prev : Option Char) : List Char → Bool
  | [] => true
  | c :: rest => !wwMatchAt px prev (c :: rest) && noMatchFrom px (some c) rest

/-- A failure-free environment for concrete runs. -/
def envAllOk : CEnv := ⟨fun _ => true, id, id, fun _ => true⟩

/-- An environment whose manifest write-backs all fail (the ignored
`safe_write_json` failure inside `_update_manifest`), while copies
succeed. -/
def envManifestWriteFails : CEnv := ⟨fun _ => true, id, id, fun _ => false⟩

/-- The scan's left context after consuming the chunk `p`: the last character
of `p` or, when `p` is empty, the incoming context. -/
def ctxAfter (prev : Option Char) (p : List Char) : Option Char :=
  match p.getLast? with
  | some l => some l
  | none => prev

/-- Does some email-like column of `t` hold exactly the target email? -/
def rowMatchesTarget (t : DbTable) (target : String) (r : List SQLValue) : Bool :=
  (emailColumns t).any (fun col => rowMatchesEmailCol t col target r)

/-! ## Generic helper lemmas -/

theorem foldl_and_steps (f : String → Bool) (g : String → OrchStep) :
    ∀ (xs : List String) (b : Bool) (l : List OrchStep),
      xs.foldl (fun acc x => (acc.1 && f x, acc.2 ++ [g x])) (b, l) =
        (b && xs.all f, l ++ xs.map g)
  | [], b, l => by simp
  | x :: xs, b, l => by
    simp only [List.foldl_cons, foldl_and_steps f g xs, List.all_cons, List.map_cons]
    simp [Bool.and_assoc]

/-! ## C4: orchestrator aggregation -/

/-- C4: `perform_cleanup` returns the AND of every selected sub-operation's
boolean result; the list of attempted steps is a function of the options and
artifact lists alone (every selected category and per-artifact step is
attempted regardless of earlier failures); and the terminal status string is
the success message exactly when the aggregate is true, the
completed-with-errors message otherwise. -/
theorem C4_perform_cleanup_aggregate (r : SubOpResults) (opts : CleanupOptions)
    (dbFiles wsLocs : List String) :
    (performCleanup r opts dbFiles wsLocs).1 =
      ((!opts.modifyTelemetryIds || r.telemetryResult) &&
       ((!opts.cleanDatabase || dbFiles.all r.dbResult) &&
        ((!opts.cleanWorkspace || wsLocs.all r.workspaceResult) &&
         (!opts.cleanAccountData || r.accountResult)))) ∧
    (performCleanup r opts dbFiles wsLocs).2.2 =
      OrchStep.createBackupDir ::
        ((if opts.modifyTelemetryIds then [OrchStep.telemetry] else []) ++
         ((if opts.cleanDatabase then dbFiles.map OrchStep.database else []) ++
          ((if opts.cleanWorkspace then wsLocs.map OrchStep.workspace else []) ++
           (if opts.cleanAccountData then [OrchStep.account] else [])))) ∧
    ((performCleanup r opts dbFiles wsLocs).2.1 =
        "Data cleanup completed successfully!" ↔
      (performCleanup r opts dbFiles wsLocs).1 = true) ∧
    ((performCleanup r opts dbFiles wsLocs).1 = false →
      (performCleanup r opts dbFiles wsLocs).2.1 =
        "Data cleanup completed with some errors") := by
  obtain ⟨mt, cd, cw, ca⟩ := opts
  cases mt <;> cases cd <;> cases cw <;> cases ca <;>
    simp [performCleanup, foldl_and_steps, Bool.and_assoc]

/-! ## C6: keyword deletion scope -/

/-- C6: `_delete_records_with_keyword` on a table with no text-like columns
changes nothing and reports 0; otherwise it deletes exactly the rows that
contain the keyword (case-insensitive substring) in at least one text-like
column, reports that number, and leaves `M - N` of the `M` rows. -/
theorem C6_keyword_delete_scope (t : DbTable) (kw : String) :
    (textColIdxs t = [] → deleteRecordsWithKeyword t kw = (t, 0)) ∧
    (textColIdxs t ≠ [] →
      (deleteRecordsWithKeyword t kw).1.cols = t.cols ∧
      (deleteRecordsWithKeyword t kw).1.rows =
        t.rows.filter (fun r => !rowHasKeyword t kw r) ∧
      (deleteRecordsWithKeyword t kw).2 =
        (t.rows.filter (fun r => rowHasKeyword t kw r)).length ∧
      (deleteRecordsWithKeyword t kw).1.rows.length =
        t.rows.length - (deleteRecordsWithKeyword t kw).2) := by
  constructor
  · intro h
    simp [deleteRecordsWithKeyword, h]
  · intro h
    have hne : (textColIdxs t).isEmpty = false := by
      cases hh : textColIdxs t with
      | nil => exact absurd hh h
      | cons a l => simp [List.isEmpty]
    refine ⟨by simp [deleteRecordsWithKeyword, hne, deleteRowsWhere],
      by simp [deleteRecordsWithKeyword, hne, deleteRowsWhere],
      by simp [deleteRecordsWithKeyword, hne, deleteRowsWhere], ?_⟩
    simp only [deleteRecordsWithKeyword, hne, Bool.false_eq_true, if_false,
      deleteRowsWhere]
    have hsplit := List.length_eq_length_filter_add
      (l := t.rows) (f := rowHasKeyword t kw)
    omega

/-! ## C5: account-table cleanup -/

theorem length_filter_or (p q : List SQLValue → Bool) :
    ∀ rows : List (List SQLValue),
      (rows.filter (fun r => p r || q r)).length =
        (rows.filter p).length + (rows.filter (fun r => !p r && q r)).length
  | [] => by simp
  | r :: rows => by
    by_cases hp : p r <;> by_cases hq : q r <;>
      simp [hp, hq, length_filter_or p q rows] <;> omega

theorem cleanAccountTable_fold (t : DbTable) (target : String) :
    ∀ (cols : List String) (rows : List (List SQLValue)) (k : Nat),
      cols.foldl
        (fun (acc : List (List SQLValue) × Nat) col =>
          let (rs, n) := deleteRowsWhere acc.1 (fun r => rowMatchesEmailCol t col target r)
          (rs, acc.2 + n))
        (rows, k) =
      (rows.filter (fun r => !cols.any (fun col => rowMatchesEmailCol t col target r)),
       k + (rows.filter (fun r => cols.any (fun col => rowMatchesEmailCol t col target r))).length)
  | [], rows, k => by simp
  | col :: cols, rows, k => by
    rw [List.foldl_cons]
    refine Eq.trans (cleanAccountTable_fold t target cols
      (rows.filter (fun r => !rowMatchesEmailCol t col target r))
      (k + (rows.filter (fun r => rowMatchesEmailCol t col target r)).length)) ?_
    simp only [List.any_cons, Prod.mk.injEq]
    constructor
    · rw [List.filter_filter]
      apply List.filter_congr
      intro r _
      cases rowMatchesEmailCol t col target r <;> simp
    · rw [List.filter_filter,
        length_filter_or (fun r => rowMatchesEmailCol t col target r)
          (fun r => cols.any (fun c2 => rowMatchesEmailCol t c2 target r)) rows]
      have : (List.filter
          (fun r => cols.any (fun c2 => rowMatchesEmailCol t c2 target r) &&
            !rowMatchesEmailCol t col target r) rows).length =
          (List.filter
            (fun r => !rowMatchesEmailCol t col target r &&
              cols.any (fun c2 => rowMatchesEmailCol t c2 target r)) rows).length := by
        congr 1
        apply List.filter_congr
        intro r _
        cases rowMatchesEmailCol t col target r <;> simp
      omega

/-- C5: `_clean_account_table` with a non-empty target email and at least one
email-like column deletes exactly the rows in which some email-like column
equals the target (reporting their number); in every other case it deletes
all rows of the table and reports the original row count. -/
theorem C5_account_table_cleanup (t : DbTable) (target : String) :
    (target ≠ "" → emailColumns t ≠ [] →
      (cleanAccountTable t target).1.cols = t.cols ∧
      (cleanAccountTable t target).1.rows =
        t.rows.filter (fun r => !rowMatchesTarget t target r) ∧
      (cleanAccountTable t target).2 =
        (t.rows.filter (fun r => rowMatchesTarget t target r)).length) ∧
    ((target = "" ∨ emailColumns t = []) →
      (cleanAccountTable t target).1.cols = t.cols ∧
      (cleanAccountTable t target).1.rows = [] ∧
      (cleanAccountTable t target).2 = t.rows.length) := by
  constructor
  · intro ht he
    have ht2 : (target == "") = false := by
      cases hh : target == "" with
      | true => exact absurd (by simpa using hh) ht
      | false => rfl
    have he2 : (emailColumns t).isEmpty = false := by
      cases hh : emailColumns t with
      | nil => exact absurd hh he
      | cons a l => simp [List.isEmpty]
    simp only [cleanAccountTable, ht2, he2, Bool.not_false, Bool.and_self,
      if_true, cleanAccountTable_fold t target (emailColumns t) t.rows 0,
      rowMatchesTarget]
    simp
  · intro h
    have : (!(target == "") && !(emailColumns t).isEmpty) = false := by
      rcases h with h | h
      · simp [h]
      · simp [h]
    simp [cleanAccountTable, this]

/-! ## C8: graceful-then-forced process termination -/

theorem terminateAugment_fold (force : Bool) :
    ∀ (procs : List ProcEntry) (acc : TermResults × List PAction),
      procs.foldl
        (fun acc p =>
          let (d, as) := terminateOne force p
          (⟨acc.1.terminated ++ d.terminated, acc.1.failed ++ d.failed,
            acc.1.warnings ++ d.warnings⟩, acc.2 ++ as))
        acc =
      (⟨acc.1.terminated ++ procs.flatMap (fun p => (terminateOne force p).1.terminated),
        acc.1.failed ++ procs.flatMap (fun p => (terminateOne force p).1.failed),
        acc.1.warnings ++ procs.flatMap (fun p => (terminateOne force p).1.warnings)⟩,
       acc.2 ++ procs.flatMap (fun p => (terminateOne force p).2))
  | [], acc => by simp
  | p :: procs, acc => by
    rw [List.foldl_cons]
    refine Eq.trans (terminateAugment_fold force procs _) ?_
    simp [List.append_assoc]

/-- C8: a running process that does not exit within the 10-time-unit
graceful wait is force-killed: the non-forced run records it in
`terminated` with method `force_kill_after_timeout` and appends the
had-to-force-kill warning.  With `force = true` the graceful phase is
skipped entirely: the only action issued for a running process is the kill,
and its method is `force_kill`. -/
theorem C8_graceful_then_forced (procs : List ProcEntry) (pid : Nat)
    (ide : String) (et : Option Nat)
    (hmem : ProcEntry.mk pid ide (ProcState.running et) ∈ procs)
    (hto : exitsWithin gracefulTimeout et = false) :
    (TermOutcome.mk pid ide "force_kill_after_timeout" ∈
        (terminateAugmentProcesses procs false).1.terminated ∧
      ("Had to force kill " ++ ide ++ " (PID: " ++ toString pid ++ ")") ∈
        (terminateAugmentProcesses procs false).1.warnings) ∧
    (∀ (q : ProcEntry) (et2 : Option Nat), q.state = ProcState.running et2 →
      (terminateOne true q).2 = [PAction.sendKill q.pid] ∧
      (terminateOne true q).1.terminated = [⟨q.pid, q.ide, "force_kill"⟩]) := by
  constructor
  · have hone : terminateOne false ⟨pid, ide, ProcState.running et⟩ =
        (⟨[⟨pid, ide, "force_kill_after_timeout"⟩], [],
          ["Had to force kill " ++ ide ++ " (PID: " ++ toString pid ++ ")"]⟩,
         [PAction.sendTerminate pid, PAction.waitFor pid gracefulTimeout,
          PAction.sendKill pid]) := by
      simp [terminateOne, hto]
    constructor
    · rw [terminateAugmentProcesses, terminateAugment_fold false]
      simp only [List.nil_append, List.mem_flatMap]
      exact ⟨_, hmem, by rw [hone]; simp⟩
    · rw [terminateAugmentProcesses, terminateAugment_fold false]
      simp only [List.nil_append, List.mem_flatMap]
      exact ⟨_, hmem, by rw [hone]; simp⟩
  · intro q et2 hq
    simp [terminateOne, hq]

/-! ## C2, C9, C10: backup and restore -/

theorem fsGet_set_self (fs : Fs) (p c : String) : fsGet (fsSet fs p c) p = some c := by
  simp [fsGet, fsSet]

theorem fsGet_set_ne (fs : Fs) (p q c : String) (h : p ≠ q) :
    fsGet (fsSet fs q c) p = fsGet fs p := by
  simp [fsGet, fsSet, h]

/-- C2: backing an existing file up into a fresh timestamped run (whose
manifest was created successfully, the backup copy and the manifest
write-back both succeeding, as in normal operation) and then restoring that
run succeeds and reproduces the file's exact content at its original
path. -/
theorem C2_backup_restore_roundtrip (env : CEnv) (fs : Fs)
    (src content backupDir : String) (rel : Option String)
    (hsrc : fsGet fs src = some content) (hcopy : env.copyOk src = true)
    (hman : env.manifestWriteOk src = true) :
    (backupFile env ⟨fs, createTimestampedBackupDir true⟩ src backupDir rel).1 = true ∧
    (restoreFromBackup
        (backupFile env ⟨fs, createTimestampedBackupDir true⟩ src backupDir rel).2.1.fs
        (backupFile env ⟨fs, createTimestampedBackupDir true⟩ src backupDir rel).2.1.manifest).1
      = true ∧
    fsGet (restoreFromBackup
        (backupFile env ⟨fs, createTimestampedBackupDir true⟩ src backupDir rel).2.1.fs
        (backupFile env ⟨fs, createTimestampedBackupDir true⟩ src backupDir rel).2.1.manifest).2
        src
      = some content := by
  cases rel with
  | none =>
    simp only [backupFile, hsrc, hcopy, createTimestampedBackupDir, if_true,
      updateManifest, hman, restoreFromBackup, restoreItems, restoreItem,
      List.nil_append]
    simp [restoreFromBackup, restoreItems, restoreItem, fsGet_set_self]
  | some r =>
    simp only [backupFile, hsrc, hcopy, createTimestampedBackupDir, if_true,
      updateManifest, hman, restoreFromBackup, restoreItems, restoreItem,
      List.nil_append]
    simp [restoreFromBackup, restoreItems, restoreItem, fsGet_set_self]

/-- C9: `backup_file` returns `True` whenever the source exists and the copy
succeeds, irrespective of the manifest side-car; in particular a backup into
a run whose manifest is unreadable still returns `True` while recording no
manifest entry at all, so a `True` return does not guarantee a manifest
entry with that source. -/
theorem C9_backup_true_without_manifest_entry :
    (∀ (env : CEnv) (st : CState) (src backupDir : String) (rel : Option String)
      (content : String), fsGet st.fs src = some content →
      env.copyOk src = true →
      (backupFile env st src backupDir rel).1 = true) ∧
    ((backupFile envAllOk ⟨[("cfg.json", "data")], none⟩ "cfg.json" "B" none).1
        = true ∧
     (backupFile envAllOk ⟨[("cfg.json", "data")], none⟩ "cfg.json" "B" none).2.1.manifest
        = none) := by
  constructor
  · intro env st src backupDir rel content hsrc hcopy
    cases rel <;> simp [backupFile, hsrc, hcopy, updateManifest]
  · constructor
    · rfl
    · rfl

/-- C10: `restore_from_backup` fails on a missing or unreadable manifest and
on a manifest with zero items (even though nothing failed individually);
when the manifest's recorded sources never collide with recorded backup
destinations (as with a real run, whose destinations live inside the backup
directory), it returns `True` exactly when at least one item restores
successfully. -/
theorem C10_restore_iff_item_restored :
    (∀ fs : Fs, restoreFromBackup fs none = (false, fs)) ∧
    (∀ fs : Fs, restoreFromBackup fs (some []) = (false, fs)) ∧
    (∀ (fs : Fs) (items : List MItem),
      (∀ it ∈ items, ∀ it2 ∈ items, it.source ≠ it2.destination) →
      ((restoreFromBackup fs (some items)).1 = true ↔
        ∃ it ∈ items, (restoreItem fs it).2 = true)) := by
  refine ⟨fun fs => rfl, fun fs => by simp [restoreFromBackup, restoreItems], ?_⟩
  intro fs items
  suffices h : ∀ (fs : Fs),
      (∀ it ∈ items, ∀ it2 ∈ items, it.source ≠ it2.destination) →
      (0 < (restoreItems fs items).2 ↔ ∃ it ∈ items, (restoreItem fs it).2 = true) by
    intro hsep
    simpa [restoreFromBackup] using h fs hsep
  clear fs
  induction items with
  | nil => intro fs _; simp [restoreItems]
  | cons it rest ih =>
    intro fs hsep
    have hstep : ∀ (it2 : MItem), it2.destination ≠ it.source →
        (restoreItem (restoreItem fs it).1 it2).2 = (restoreItem fs it2).2 := by
      intro it2 hne
      have hget : fsGet (restoreItem fs it).1 it2.destination =
          fsGet fs it2.destination := by
        unfold restoreItem
        by_cases h1 : it.itemType = "file" <;> by_cases h2 : it.itemType = "directory" <;>
          simp only [h1, h2, if_true, if_false] <;>
          first
            | rfl
            | (cases hg : fsGet fs it.destination <;>
                simp [hg, fsGet_set_ne _ _ _ _ hne])
      set g := (restoreItem fs it).1 with hGdef
      unfold restoreItem
      by_cases h1 : it2.itemType = "file" <;> by_cases h2 : it2.itemType = "directory" <;>
        simp only [h1, h2, if_true, if_false, hget] <;>
        first
          | rfl
          | (cases hg2 : fsGet fs it2.destination <;> simp [hg2])
    have hrest : ∀ it2 ∈ rest, ∀ it3 ∈ rest, it2.source ≠ it3.destination := by
      intro a ha b hb
      exact hsep a (List.mem_cons_of_mem _ ha) b (List.mem_cons_of_mem _ hb)
    have ihfs := ih (restoreItem fs it).1 hrest
    constructor
    · intro hpos
      simp only [restoreItems] at hpos
      by_cases hok : (restoreItem fs it).2 = true
      · exact ⟨it, List.mem_cons_self it rest, hok⟩
      · have h0 : (if (restoreItem fs it).2 then 1 else 0) = 0 := by
          simp [hok]
        rw [h0] at hpos
        simp only [Nat.zero_add] at hpos
        obtain ⟨it2, hmem2, hok2⟩ := ihfs.mp hpos
        refine ⟨it2, List.mem_cons_of_mem _ hmem2, ?_⟩
        rw [← hstep it2 (Ne.symm (hsep it (List.mem_cons_self it rest) it2
          (List.mem_cons_of_mem _ hmem2)))]
        exact hok2
    · rintro ⟨it2, hmem2, hok2⟩
      simp only [restoreItems]
      rcases List.mem_cons.mp hmem2 with rfl | hmem3
      · simp [hok2]
      · have : (restoreItem (restoreItem fs it).1 it2).2 = true := by
          rw [hstep it2 (Ne.symm (hsep it (List.mem_cons_self it rest) it2
            (List.mem_cons_of_mem _ hmem3)))]
          exact hok2
        have hpos := ihfs.mpr ⟨it2, hmem3, this⟩
        cases h9 : (restoreItem fs it).2
        · simpa using hpos
        · simp

/-! ## C3: whole-word username redaction in remove-all mode

`_clean_account_file` only whole-word-replaces a discovered username when
`len(username) > 4`.  The discovery filter (`len > 2`) does return the
username `"eve"`, but the cleanup guard skips it, so a standalone `"eve"` is
NOT replaced — the claim's `"eve"` scenario fails.  For usernames longer
than 4 characters the replacement is genuinely whole-word. -/

/-- C3 counterexample: exhaustive cleanup of the content `"eve steven"` with
discovered username `"eve"` leaves the content unchanged — in particular the
standalone token `"eve"` is not replaced by `[REMOVED]`, contradicting the
claim at this input. -/
theorem C3_counterexample :
    removeAllClean [] ["eve".toList] "eve steven".toList = "eve steven".toList ∧
    removeAllClean [] ["eve".toList] "eve steven".toList ≠
      "[REMOVED] steven".toList := by
  constructor
  · decide
  · decide

/-- C3 amended: in exhaustive cleanup a discovered username is whole-word
replaced only when it is longer than 4 characters; such a username
(e.g. `"steve"`) is replaced at its standalone occurrence and left intact
inside the unrelated token `"steven"`, while any username of length at most
4 (such as `"eve"`) is left entirely unchanged. -/
theorem C3_whole_word_redaction :
    (removeAllClean [] ["steve".toList] "steve steven".toList =
      "[REMOVED] steven".toList) ∧
    (∀ (u content : List Char), u.length ≤ 4 →
      removeAllClean [] [u] content = content) := by
  constructor
  · simp [removeAllClean, wordSub, wordSubAux, wwMatchAt, optWord, isWordC,
      tokenL, List.isPrefixOf]
  · intro u content hu
    have h4 : ¬(4 < u.length) := by omega
    simp [removeAllClean, h4]

/-! ## C1: backup-before-mutate invariant -/

theorem backupFile_spec (env : CEnv) (st : CState) (src d : String)
    (rel : Option String) (m : List MItem) (hm : st.manifest = some m)
    (hw : env.manifestWriteOk src = true) :
    ((backupFile env st src d rel).1 = false ∧
      (backupFile env st src d rel).2.1 = st ∧
      (backupFile env st src d rel).2.2 = []) ∨
    ((backupFile env st src d rel).1 = true ∧
      (∃ dest sz, (backupFile env st src d rel).2.1.manifest =
          some (m ++ [⟨"file", src, dest, sz⟩]) ∧
        (backupFile env st src d rel).2.2 =
          [CEvent.copyFile src dest, CEvent.manifestAdd src])) := by
  unfold backupFile
  cases hsrc : fsGet st.fs src with
  | none => exact Or.inl ⟨rfl, rfl, rfl⟩
  | some content =>
    by_cases hcopy : env.copyOk src = true
    · simp only [hcopy, if_true]
      refine Or.inr ⟨by trivial,
        (match rel with
         | some r => d ++ "/" ++ r
         | none => d ++ "/files/" ++ baseName src), content.length, ?_, ?_⟩ <;>
        simp [hm, updateManifest, hw]
    · simp only [Bool.not_eq_true] at hcopy
      simp only [hcopy, Bool.false_eq_true, if_false]
      exact Or.inl ⟨by trivial, by trivial, by trivial⟩

theorem guardedFrom_append (xs : List CEvent) :
    ∀ (ys : List CEvent) (backed : List String),
      guardedFrom backed (xs ++ ys) =
        (guardedFrom backed xs && guardedFrom (accB backed xs) ys) := by
  induction xs with
  | nil => intro ys backed; simp [guardedFrom, accB]
  | cons e xs ih =>
    intro ys backed
    cases e with
    | copyFile a b => simpa [guardedFrom, accB] using ih ys backed
    | manifestAdd s => simpa [guardedFrom, accB] using ih ys (s :: backed)
    | mutateAttempt p =>
      simp [guardedFrom, accB, ih ys backed, Bool.and_assoc]

theorem accB_append (xs : List CEvent) :
    ∀ (ys : List CEvent) (backed : List String),
      accB backed (xs ++ ys) = accB (accB backed xs) ys := by
  induction xs with
  | nil => intro ys backed; simp [accB]
  | cons e xs ih =>
    intro ys backed
    cases e with
    | copyFile a b => simpa [accB] using ih ys backed
    | manifestAdd s2 => simpa [accB] using ih ys (s2 :: backed)
    | mutateAttempt p => simpa [accB] using ih ys backed

theorem guardedFrom_cons_contains (p : String) (backed : List String)
    (h : backed.contains p = true) (evs : List CEvent) :
    guardedFrom backed (CEvent.mutateAttempt p :: evs) =
      guardedFrom backed evs := by
  simp only [guardedFrom, h, Bool.true_and]

theorem cleanAccountData_guarded (env : CEnv) (bdir te : String) (ra : Bool)
    (hwo : ∀ p, env.manifestWriteOk p = true) :
    ∀ (files : List AccountFileInfo) (st : CState) (backed : List String),
      st.manifest.isSome = true →
      guardedFrom backed (cleanAccountData env st bdir te ra files).2.2 = true ∧
      (cleanAccountData env st bdir te ra files).2.1.manifest.isSome = true
  | [], st, backed, hm => by simpa [cleanAccountData, guardedFrom] using hm
  | info :: rest, st, backed, hm => by
    obtain ⟨m, hm2⟩ := Option.isSome_iff_exists.mp hm
    rcases backupFile_spec env st info.file bdir
        (some ("account_files/" ++ baseName info.file)) m hm2 (hwo info.file) with
      ⟨hok, hst, hev⟩ | ⟨hok, dest, sz, hman, hev⟩
    · simp only [cleanAccountData, hok, Bool.false_eq_true, if_false, hev,
        hst, List.nil_append]
      exact cleanAccountData_guarded env bdir te ra hwo rest st backed hm
    · have hm3 : (⟨(cleanAccountFileFs
          (backupFile env st info.file bdir
            (some ("account_files/" ++ baseName info.file))).2.1.fs info te ra).2,
          (backupFile env st info.file bdir
            (some ("account_files/" ++ baseName info.file))).2.1.manifest⟩ :
            CState).manifest.isSome = true := by
        simp [hman]
      have ih := cleanAccountData_guarded env bdir te ra hwo rest _
        (info.file :: backed) hm3
      simp only [cleanAccountData, hok, if_true, hev]
      refine ⟨?_, ih.2⟩
      simp [guardedFrom, List.contains_cons, ih.1]

theorem cleanDatabase_guarded (env : CEnv) (bdir db : String)
    (hwo : ∀ p, env.manifestWriteOk p = true)
    (st : CState) (backed : List String) (hm : st.manifest.isSome = true) :
    guardedFrom backed (cleanDatabase env st db bdir).2.2 = true ∧
    (cleanDatabase env st db bdir).2.1.manifest.isSome = true := by
  obtain ⟨m, hm2⟩ := Option.isSome_iff_exists.mp hm
  unfold cleanDatabase
  cases hsrc : fsGet st.fs db with
  | none => simpa [guardedFrom] using hm
  | some content =>
    rcases backupFile_spec env st db bdir
        (some ("database/" ++ baseName db)) m hm2 (hwo db) with
      ⟨hok, hst, hev⟩ | ⟨hok, dest, sz, hman, hev⟩
    · simp only [hok, Bool.false_eq_true, if_false, hev, hst]
      simpa [guardedFrom] using hm
    · simp only [hok, if_true, hev]
      constructor
      · simp [guardedFrom]
      · simp [hman]

theorem cleanDatabases_guarded (env : CEnv) (bdir : String)
    (hwo : ∀ p, env.manifestWriteOk p = true) :
    ∀ (dbs : List String) (st : CState) (backed : List String),
      st.manifest.isSome = true →
      guardedFrom backed (cleanDatabases env st bdir dbs).2.2 = true ∧
      (cleanDatabases env st bdir dbs).2.1.manifest.isSome = true
  | [], st, backed, hm => by simpa [cleanDatabases, guardedFrom] using hm
  | db :: rest, st, backed, hm => by
    have h1 := cleanDatabase_guarded env bdir db hwo st backed hm
    have h2 := cleanDatabases_guarded env bdir hwo rest
      (cleanDatabase env st db bdir).2.1
      (accB backed (cleanDatabase env st db bdir).2.2) h1.2
    simp only [cleanDatabases]
    constructor
    · rw [guardedFrom_append]
      simp [h1.1, h2.1]
    · exact h2.2

theorem modifyConfigIds_guarded (env : CEnv) (bdir : String)
    (hwo : ∀ p, env.manifestWriteOk p = true) :
    ∀ (files : List String) (st : CState) (modified backed : List String),
      st.manifest.isSome = true →
      (∀ f, modified.contains f = true → backed.contains f = true) →
      guardedFrom backed (modifyConfigIds env st bdir modified files).2.2 = true ∧
      (modifyConfigIds env st bdir modified files).2.1.manifest.isSome = true
  | [], st, modified, backed, hm, _ => by
    simpa [modifyConfigIds, guardedFrom] using hm
  | f :: rest, st, modified, backed, hm, hsub => by
    obtain ⟨m, hm2⟩ := Option.isSome_iff_exists.mp hm
    by_cases hmodf : modified.contains f = true
    · have ih := modifyConfigIds_guarded env bdir hwo rest _ modified backed
        (by simp [hm2] : (⟨(match fsGet st.fs f with
            | some c => fsSet st.fs f (env.telemetryRewrite c)
            | none => st.fs), st.manifest⟩ : CState).manifest.isSome = true) hsub
      simp only [modifyConfigIds, hmodf, if_true]
      rw [guardedFrom_cons_contains f backed (hsub f hmodf) _]
      exact ih
    · simp only [Bool.not_eq_true] at hmodf
      rcases backupFile_spec env st f bdir
          (some ("config_files/" ++ baseName f)) m hm2 (hwo f) with
        ⟨hok, hst, hev⟩ | ⟨hok, dest, sz, hman, hev⟩
      · simp only [modifyConfigIds, hmodf, Bool.false_eq_true, if_false, hok,
          hev, hst, List.nil_append]
        exact modifyConfigIds_guarded env bdir hwo rest st modified backed hm hsub
      · have hm3 : (⟨(match fsGet (backupFile env st f bdir
            (some ("config_files/" ++ baseName f))).2.1.fs f with
            | some c => fsSet (backupFile env st f bdir
                (some ("config_files/" ++ baseName f))).2.1.fs f
                (env.telemetryRewrite c)
            | none => (backupFile env st f bdir
                (some ("config_files/" ++ baseName f))).2.1.fs),
            (backupFile env st f bdir
              (some ("config_files/" ++ baseName f))).2.1.manifest⟩ :
              CState).manifest.isSome = true := by
          simp [hman]
        have ih := modifyConfigIds_guarded env bdir hwo rest _ (f :: modified)
          (f :: backed) hm3 ?_
        · simp only [modifyConfigIds, hmodf, Bool.false_eq_true, if_false,
            hok, if_true, hev]
          refine ⟨?_, ih.2⟩
          simp [guardedFrom, List.contains_cons, ih.1]
        · intro g hg
          rcases List.contains_iff_exists_mem_beq.mp hg with ⟨a, ha, hbeq⟩
          rcases List.mem_cons.mp ha with rfl | ha2
          · simp only [List.contains_cons, Bool.or_eq_true]
            exact Or.inl hbeq
          · have hgm : modified.contains g = true :=
              List.contains_iff_exists_mem_beq.mpr ⟨a, ha2, hbeq⟩
            simp only [List.contains_cons, Bool.or_eq_true]
            exact Or.inr (hsub g hgm)

/-- C1 (amended): provided neither ignored `safe_write_json` failure of the
backup path occurs — the run's freshly written `backup_manifest.json` is
readable (`create_timestamped_backup_dir`'s write at backup_manager.py:52
succeeded and the side-car stays readable) and every per-file write-back of
`_update_manifest` (the ignored `safe_write_json` at backup_manager.py:161)
succeeds — every artifact mutated by the run — telemetry config file,
database file or account file — has a manifest entry with its path as
`source` appended strictly before its mutation is attempted, and an
artifact whose backup step fails is skipped rather than mutated. -/
theorem C1_backup_before_mutate (env : CEnv) (st0 : CState) (bdir : String)
    (configFiles dbFiles : List String) (acctFiles : List AccountFileInfo)
    (te : String) (ra : Bool) (hm : st0.manifest.isSome = true)
    (hwo : ∀ p, env.manifestWriteOk p = true) :
    guardedFrom []
      (cleanupRunEvents env st0 bdir configFiles dbFiles acctFiles te ra).2 =
      true := by
  have h1 := modifyConfigIds_guarded env bdir hwo configFiles st0 [] []
    hm (by intro f h; simp [List.contains] at h)
  have h2 := cleanDatabases_guarded env bdir hwo dbFiles
    (modifyConfigIds env st0 bdir [] configFiles).2.1
    (accB [] (modifyConfigIds env st0 bdir [] configFiles).2.2) h1.2
  have h3 := cleanAccountData_guarded env bdir te ra hwo acctFiles
    (cleanDatabases env (modifyConfigIds env st0 bdir [] configFiles).2.1
      bdir dbFiles).2.1
    (accB (accB [] (modifyConfigIds env st0 bdir [] configFiles).2.2)
      (cleanDatabases env (modifyConfigIds env st0 bdir [] configFiles).2.1
        bdir dbFiles).2.2) h2.2
  simp only [cleanupRunEvents]
  rw [guardedFrom_append, guardedFrom_append, accB_append]
  simp [h1.1, h2.1, h3.1]

/-- C1 counterexample to the unconditional claim, exhibiting both ignored
`safe_write_json` failures of the backup path.  First run: the manifest
side-car is unreadable (the ignored write failure in
`create_timestamped_backup_dir`, backup_manager.py:52), yet `backup_file`
still returns True, the account file is backed up and then mutated with no
manifest entry for it in the trace.  Second run: the side-car is readable
but `_update_manifest`'s own write-back (the ignored `safe_write_json` at
backup_manager.py:161) fails; `backup_file` again returns True and the
artifact is mutated without its append ever persisting, so the trace again
has the mutation unguarded by a manifest entry. -/
theorem C1_counterexample :
    (CEvent.mutateAttempt "data/config.json" ∈
      (cleanupRunEvents envAllOk ⟨[("data/config.json", "e")], none⟩ "B"
        [] [] [⟨"data/config.json", [], []⟩] "" false).2 ∧
    guardedFrom []
      (cleanupRunEvents envAllOk ⟨[("data/config.json", "e")], none⟩ "B"
        [] [] [⟨"data/config.json", [], []⟩] "" false).2 = false) ∧
    (CEvent.mutateAttempt "data/config.json" ∈
      (cleanupRunEvents envManifestWriteFails
        ⟨[("data/config.json", "e")], some []⟩ "B"
        [] [] [⟨"data/config.json", [], []⟩] "" false).2 ∧
    guardedFrom []
      (cleanupRunEvents envManifestWriteFails
        ⟨[("data/config.json", "e")], some []⟩ "B"
        [] [] [⟨"data/config.json", [], []⟩] "" false).2 = false) := by
  refine ⟨⟨?_, ?_⟩, ?_, ?_⟩ <;> decide

/-! ## C7: idempotence of targeted-email cleanup

The development below analyses one rewriting pass of
`content.replace(email, '[REMOVED]')` followed by
`re.sub(rf'\b{prefix}\b', '[REMOVED]', ·)` and shows that a second pass is
the identity, provided the email contains `'@'` and no square brackets and
its local part is not the literal word `REMOVED`.  (The literal email
`REMOVED@x.com` — a perfectly well-formed address — breaks idempotence:
each pass wraps one more bracket pair around the token.) -/

theorem prefixAppendCases {p a b : List Char} (h : p <+: a ++ b) :
    p <+: a ∨ a <+: p := by
  induction a generalizing p with
  | nil => exact Or.inr List.nil_prefix
  | cons x a2 ih =>
    cases p with
    | nil => exact Or.inl List.nil_prefix
    | cons y p2 =>
      rw [List.cons_append, List.cons_prefix_cons] at h
      rcases h with ⟨rfl, h2⟩
      rcases ih h2 with h3 | h3
      · exact Or.inl (List.cons_prefix_cons.mpr ⟨rfl, h3⟩)
      · exact Or.inr (List.cons_prefix_cons.mpr ⟨rfl, h3⟩)

theorem infixAppendCases {t a b : List Char} (h : t <:+: a ++ b) :
    t <:+: a ∨ t <:+: b ∨
      ∃ t₁ t₂, t = t₁ ++ t₂ ∧ t₁ ≠ [] ∧ t₂ ≠ [] ∧ t₁ <:+ a ∧ t₂ <+: b := by
  induction a generalizing t with
  | nil => exact Or.inr (Or.inl (by simpa using h))
  | cons x a2 ih =>
    rw [List.cons_append, List.infix_cons_iff] at h
    rcases h with h | h
    · rcases prefixAppendCases (a := x :: a2) h with h2 | h2
      · exact Or.inl h2.isInfix
      · rcases h2 with ⟨r, rfl⟩
        have hr : r <+: b := (List.prefix_append_right_inj (x :: a2)).mp h
        rcases List.eq_nil_or_concat r with rfl | _
        · exact Or.inl (by simp)
        · refine Or.inr (Or.inr ⟨x :: a2, r, rfl, by simp, by
            rintro rfl; simp_all, List.suffix_refl _, hr⟩)
    · rcases ih h with h2 | h2 | h2
      · exact Or.inl (h2.trans (List.infix_cons (List.infix_refl a2)))
      · exact Or.inr (Or.inl h2)
      · rcases h2 with ⟨t₁, t₂, rfl, h1, h2, h3, h4⟩
        exact Or.inr (Or.inr ⟨t₁, t₂, rfl, h1, h2, h3.trans (List.suffix_cons x a2), h4⟩)

theorem mem_of_suffix_tokenL {t₁ : List Char} (h : t₁ <:+ tokenL) (hne : t₁ ≠ []) :
    ']' ∈ t₁ := by
  obtain ⟨u, hu⟩ := h
  have h1 : tokenL.getLast? = some ']' := by decide
  rw [← hu, List.getLast?_append_of_ne_nil u hne] at h1
  exact List.mem_of_mem_getLast? h1

theorem head_mem_of_pfx {px : List Char} {c : Char} {w : List Char}
    (hne : px ≠ []) (h : px <+: c :: w) : c ∈ px := by
  cases px with
  | nil => exact absurd rfl hne
  | cons p0 px2 =>
    rw [List.cons_prefix_cons] at h
    rw [h.1]
    exact List.mem_cons_self _ _

/-- A prefix longer than the first chunk of an append absorbs that chunk. -/
theorem prefix_append_split {p a b : List Char} (h : p <+: a ++ b)
    (h2 : a <+: p) : ∃ r, p = a ++ r ∧ r <+: b := by
  obtain ⟨r, rfl⟩ := h2
  exact ⟨r, rfl, (List.prefix_append_right_inj a).mp h⟩

/-! ### One pass of `str.replace(t, '[REMOVED]')` -/

theorem ra_inv (t : List Char) :
    ∀ (n : Nat) (s : List Char), s.length ≤ n →
      ∃ p q, replaceAll t tokenL s = p ++ q ∧ p <+: s ∧
        ((q = [] ∧ p = s) ∨ ∃ q2, q = '[' :: q2)
  | _, [], _ => ⟨[], [], by simp [replaceAll], List.nil_prefix, Or.inl ⟨rfl, rfl⟩⟩
  | 0, c :: rest, h => by simp at h
  | Nat.succ n, c :: rest, h => by
    by_cases hc : (!t.isEmpty && t.isPrefixOf (c :: rest)) = true
    · refine ⟨[], tokenL ++ replaceAll t tokenL (rest.drop (t.length - 1)),
        ?_, List.nil_prefix, Or.inr ⟨"REMOVED]".toList ++
          replaceAll t tokenL (rest.drop (t.length - 1)), ?_⟩⟩
      · simp [replaceAll, hc]
      · rfl
    · obtain ⟨p, q, h1, h2, h3⟩ := ra_inv t n rest (by
        simp only [List.length_cons] at h; omega)
      simp only [Bool.not_eq_true] at hc
      refine ⟨c :: p, q, ?_, List.cons_prefix_cons.mpr ⟨rfl, h2⟩, ?_⟩
      · simp only [replaceAll, hc, Bool.false_eq_true, if_false, h1,
          List.cons_append]
      · rcases h3 with ⟨rfl, rfl⟩ | h3
        · exact Or.inl ⟨rfl, rfl⟩
        · exact Or.inr h3

theorem ra_noOcc (t : List Char) (htl : '[' ∉ t) (htr : ']' ∉ t)
    (hocc : ¬ t <:+: tokenL) :
    ∀ (n : Nat) (s : List Char), s.length ≤ n →
      ¬ t <:+: replaceAll t tokenL s
  | _, [], _ => by
    intro hinf
    rw [show replaceAll t tokenL [] = [] from by simp [replaceAll]] at hinf
    have := hinf.subset
    have ht0 : t = [] := List.eq_nil_iff_forall_not_mem.mpr (by
      intro a ha; exact absurd (this ha) (by simp))
    subst ht0
    exact hocc List.nil_infix
  | 0, c :: rest, h => by simp at h
  | Nat.succ n, c :: rest, h => by
    have hlen : rest.length ≤ n := by simp only [List.length_cons] at h; omega
    by_cases hc : (!t.isEmpty && t.isPrefixOf (c :: rest)) = true
    · have ht0 : t ≠ [] := by
        rcases Bool.and_eq_true_iff.mp hc with ⟨h1, _⟩
        simpa using h1
      simp only [replaceAll, hc, if_true]
      intro hinf
      rcases infixAppendCases hinf with h1 | h1 | ⟨t₁, t₂, heq, hne1, hne2, hsuf, hpre⟩
      · exact hocc h1
      · exact ra_noOcc t htl htr hocc n (rest.drop (t.length - 1))
          (le_trans (by simp) hlen) h1
      · have : ']' ∈ t := by
          rw [heq]
          exact List.mem_append.mpr (Or.inl (mem_of_suffix_tokenL hsuf hne1))
        exact htr this
    · simp only [Bool.not_eq_true] at hc
      simp only [replaceAll, hc, Bool.false_eq_true, if_false]
      intro hinf
      rcases List.infix_cons_iff.mp hinf with hpre | htail
      · by_cases ht0 : t = []
        · subst ht0; exact hocc List.nil_infix
        obtain ⟨p, q, ho, hp, hq⟩ := ra_inv t n rest hlen
        cases t with
        | nil => exact ht0 rfl
        | cons t0 t2 =>
          rw [List.cons_prefix_cons] at hpre
          obtain ⟨rfl, hpre2⟩ := hpre
          rw [ho] at hpre2
          have habs : t0 :: t2 <+: t0 :: rest → False := by
            intro hx
            have : (!(t0 :: t2).isEmpty &&
                (t0 :: t2).isPrefixOf (t0 :: rest)) = true := by
              simp only [Bool.and_eq_true, List.isPrefixOf_iff_prefix]
              exact ⟨by simp, hx⟩
            rw [this] at hc
            simp at hc
          rcases prefixAppendCases hpre2 with h2 | h2
          · exact habs (List.cons_prefix_cons.mpr ⟨rfl, h2.trans hp⟩)
          · obtain ⟨r, hr, hrq⟩ := prefix_append_split hpre2 h2
            rcases hq with ⟨rfl, rfl⟩ | ⟨q2, rfl⟩
            · have : r = [] := List.prefix_nil.mp hrq
              subst this
              rw [List.append_nil] at hr
              subst hr
              exact habs (List.cons_prefix_cons.mpr ⟨rfl, hp⟩)
            · cases r with
              | nil =>
                rw [List.append_nil] at hr
                subst hr
                exact habs (List.cons_prefix_cons.mpr ⟨rfl, h2.trans hp⟩)
              | cons r0 r2 =>
                rw [List.cons_prefix_cons] at hrq
                have : '[' ∈ t0 :: t2 := by
                  rw [hr, ← hrq.1]
                  exact List.mem_cons_of_mem _
                    (List.mem_append.mpr (Or.inr (List.mem_cons_self _ _)))
                exact htl this
      · exact ra_noOcc t htl htr hocc n rest hlen htail

theorem ra_fix (t : List Char) :
    ∀ (n : Nat) (s : List Char), s.length ≤ n → ¬ t <:+: s →
      replaceAll t tokenL s = s
  | _, [], _, _ => by simp [replaceAll]
  | 0, c :: rest, h, _ => by simp at h
  | Nat.succ n, c :: rest, h, hfree => by
    have hlen : rest.length ≤ n := by simp only [List.length_cons] at h; omega
    by_cases hc : (!t.isEmpty && t.isPrefixOf (c :: rest)) = true
    · exact absurd ((List.isPrefixOf_iff_prefix.mp
        (Bool.and_eq_true_iff.mp hc).2).isInfix) hfree
    · simp only [Bool.not_eq_true] at hc
      simp only [replaceAll, hc, Bool.false_eq_true, if_false]
      rw [ra_fix t n rest hlen (fun hx => hfree (List.infix_cons hx))]

/-! ### One pass of `re.sub(r'\b<px>\b', '[REMOVED]', ·)` -/

theorem ctxAfter_cons (prev : Option Char) (c : Char) (p : List Char) :
    ctxAfter prev (c :: p) = ctxAfter (some c) p := by
  cases p with
  | nil => simp [ctxAfter]
  | cons d p2 =>
    unfold ctxAfter
    rw [List.getLast?_cons_cons]
    cases hgl : (d :: p2).getLast? with
    | none => exact absurd hgl (by simp)
    | some l => rfl

/-- Structural decomposition of one `wordSubAux` pass: the output is an
unchanged prefix of the input followed either by nothing (no match at all:
the output IS the input) or by the token, the token marking an actual match
of `\b px \b` at that input position (with the correct left context). -/
theorem ws_inv (px : List Char) :
    ∀ (n : Nat) (prev : Option Char) (s : List Char), s.length ≤ n →
      ∃ p q, wordSubAux px tokenL prev s = p ++ q ∧ p <+: s ∧
        ((q = [] ∧ p = s) ∨
          ∃ q2, q = '[' :: q2 ∧
            wwMatchAt px (ctxAfter prev p) (s.drop p.length) = true)
  | _, _, [], _ => ⟨[], [], by simp [wordSubAux], List.nil_prefix, Or.inl ⟨rfl, rfl⟩⟩
  | 0, _, c :: rest, h => by simp at h
  | Nat.succ n, prev, c :: rest, h => by
    have hlen : rest.length ≤ n := by simp only [List.length_cons] at h; omega
    by_cases hm : wwMatchAt px prev (c :: rest) = true
    · refine ⟨[], tokenL ++ wordSubAux px tokenL px.getLast?
        (rest.drop (px.length - 1)), ?_, List.nil_prefix,
        Or.inr ⟨"REMOVED]".toList ++ wordSubAux px tokenL px.getLast?
          (rest.drop (px.length - 1)), ?_, ?_⟩⟩
      · simp [wordSubAux, hm]
      · have htok : tokenL = '[' :: "REMOVED]".toList := by decide
        rw [htok]; rfl
      · simpa [ctxAfter] using hm
    · obtain ⟨p, q, h1, h2, h3⟩ := ws_inv px n (some c) rest hlen
      simp only [Bool.not_eq_true] at hm
      refine ⟨c :: p, q, ?_, List.cons_prefix_cons.mpr ⟨rfl, h2⟩, ?_⟩
      · simp only [wordSubAux, hm, Bool.false_eq_true, if_false, h1,
          List.cons_append]
      · rcases h3 with ⟨rfl, rfl⟩ | ⟨q2, rfl, hcorr⟩
        · exact Or.inl ⟨rfl, rfl⟩
        · refine Or.inr ⟨q2, rfl, ?_⟩
          rw [ctxAfter_cons]
          simpa using hcorr

/-- A `wordSubAux` pass never creates an occurrence of a bracket-free string
`t` that does not occur in the input and does not occur in the token. -/
theorem ws_keeps_free (px t : List Char) (htl : '[' ∉ t) (htr : ']' ∉ t)
    (hocc : ¬ t <:+: tokenL) :
    ∀ (n : Nat) (prev : Option Char) (s : List Char), s.length ≤ n →
      ¬ t <:+: s → ¬ t <:+: wordSubAux px tokenL prev s
  | _, _, [], _, _ => by
    intro hinf
    rw [show wordSubAux px tokenL _ [] = [] from by simp [wordSubAux]] at hinf
    have hsub := hinf.subset
    have ht0 : t = [] := List.eq_nil_iff_forall_not_mem.mpr (by
      intro a ha; exact absurd (hsub ha) (by simp))
    subst ht0
    exact hocc List.nil_infix
  | 0, _, c :: rest, h, _ => by simp at h
  | Nat.succ n, prev, c :: rest, h, hfree => by
    have hlen : rest.length ≤ n := by simp only [List.length_cons] at h; omega
    have hfree2 : ¬ t <:+: rest := fun hx => hfree (List.infix_cons hx)
    by_cases hm : wwMatchAt px prev (c :: rest) = true
    · simp only [wordSubAux, hm, if_true]
      intro hinf
      rcases infixAppendCases hinf with h1 | h1 | ⟨t₁, t₂, heq, hne1, hne2, hsuf, hpre⟩
      · exact hocc h1
      · have hfree3 : ¬ t <:+: rest.drop (px.length - 1) := fun hx =>
          hfree2 (hx.trans (List.drop_suffix _ rest).isInfix)
        exact ws_keeps_free px t htl htr hocc n px.getLast?
          (rest.drop (px.length - 1)) (le_trans (by simp) hlen) hfree3 h1
      · exact htr (heq ▸ List.mem_append.mpr
          (Or.inl (mem_of_suffix_tokenL hsuf hne1)))
    · simp only [Bool.not_eq_true] at hm
      simp only [wordSubAux, hm, Bool.false_eq_true, if_false]
      intro hinf
      rcases List.infix_cons_iff.mp hinf with hpre | htail
      · cases t with
        | nil => exact hocc List.nil_infix
        | cons t0 t2 =>
          rw [List.cons_prefix_cons] at hpre
          obtain ⟨rfl, hpre2⟩ := hpre
          obtain ⟨p, q, ho, hp, hq⟩ := ws_inv px n (some t0) rest hlen
          rw [ho] at hpre2
          have habs : t2 <+: rest → False := fun hx =>
            hfree (List.IsPrefix.isInfix (List.cons_prefix_cons.mpr ⟨rfl, hx⟩))
          rcases prefixAppendCases hpre2 with h2 | h2
          · exact habs (h2.trans hp)
          · obtain ⟨r, hr, hrq⟩ := prefix_append_split hpre2 h2
            rcases hq with ⟨rfl, rfl⟩ | ⟨q2, rfl, _⟩
            · have : r = [] := List.prefix_nil.mp hrq
              subst this
              rw [List.append_nil] at hr
              subst hr
              exact habs hp
            · cases r with
              | nil =>
                rw [List.append_nil] at hr
                subst hr
                exact habs (h2.trans hp)
              | cons r0 r2 =>
                rw [List.cons_prefix_cons] at hrq
                refine htl ?_
                rw [hr, ← hrq.1]
                exact List.mem_cons_of_mem _
                  (List.mem_append.mpr (Or.inr (List.mem_cons_self _ _)))
      · exact ws_keeps_free px t htl htr hocc n (some c) rest hlen hfree2 htail

theorem wwMatchAt_eq_true_iff (px : List Char) (prev : Option Char)
    (s : List Char) :
    wwMatchAt px prev s = true ↔
      px ≠ [] ∧ px <+: s ∧ optWord prev ≠ optWord px.head? ∧
        optWord px.getLast? ≠ optWord ((s.drop px.length).head?) := by
  simp [wwMatchAt, List.isPrefixOf_iff_prefix, and_assoc]

theorem ww_false_head_notmem (px : List Char) (ctx : Option Char) (d : Char)
    (w : List Char) (hd : d ∉ px) : wwMatchAt px ctx (d :: w) = false := by
  cases hW : wwMatchAt px ctx (d :: w) with
  | false => rfl
  | true =>
    obtain ⟨h0, h1, _, _⟩ := (wwMatchAt_eq_true_iff px ctx (d :: w)).mp hW
    exact absurd (head_mem_of_pfx h0 h1) hd

theorem ww_false_word_word (px : List Char) (x d : Char) (w : List Char)
    (hx : isWordC x = true) (hd : isWordC d = true) :
    wwMatchAt px (some x) (d :: w) = false := by
  cases hW : wwMatchAt px (some x) (d :: w) with
  | false => rfl
  | true =>
    obtain ⟨h0, h1, h2, _⟩ := (wwMatchAt_eq_true_iff px (some x) (d :: w)).mp hW
    cases px with
    | nil => exact absurd rfl h0
    | cons p0 p2 =>
      rw [List.cons_prefix_cons] at h1
      exact absurd (by simp [optWord, hx, h1.1, hd]) h2

theorem ww_false_removed (px : List Char) (hpr : ']' ∉ px)
    (hrem : px ≠ "REMOVED".toList) (ctx : Option Char) (z : List Char) :
    wwMatchAt px ctx ("REMOVED".toList ++ (']' :: z)) = false := by
  cases hW : wwMatchAt px ctx ("REMOVED".toList ++ (']' :: z)) with
  | false => rfl
  | true =>
    exfalso
    obtain ⟨h0, h1, h2, h3⟩ :=
      (wwMatchAt_eq_true_iff px ctx ("REMOVED".toList ++ (']' :: z))).mp hW
    rcases prefixAppendCases h1 with hA | hB
    · obtain ⟨w, hw⟩ := hA
      have hwne : w ≠ [] := by
        intro hwnil
        subst hwnil
        rw [List.append_nil] at hw
        exact hrem hw
      have hall : ∀ a ∈ "REMOVED".toList, isWordC a = true := by decide
      cases w with
      | nil => exact hwne rfl
      | cons w0 w2 =>
        refine h3 ?_
        have hdrop : ("REMOVED".toList ++ (']' :: z)).drop px.length =
            (w0 :: w2) ++ (']' :: z) := by
          rw [← hw, List.append_assoc, List.drop_left]
        rw [hdrop]
        have hl1 : px.getLast? = some (px.getLast h0) :=
          List.getLast?_eq_getLast px h0
        have hlw : isWordC (px.getLast h0) = true := hall _ (by
          rw [← hw]
          exact List.mem_append.mpr (Or.inl (List.getLast_mem h0)))
        have hw0 : isWordC w0 = true := hall w0 (by
          rw [← hw]
          exact List.mem_append.mpr (Or.inr (List.mem_cons_self _ _)))
        simp [hl1, optWord, hlw, hw0]
    · obtain ⟨r, hr, hrq⟩ := prefix_append_split h1 hB
      cases r with
      | nil =>
        rw [List.append_nil] at hr
        exact hrem hr
      | cons r0 r2 =>
        rw [List.cons_prefix_cons] at hrq
        refine hpr ?_
        rw [hr, ← hrq.1]
        exact List.mem_append.mpr (Or.inr (List.mem_cons_self _ _))

theorem noMatchFrom_swap (px : List Char) (pv pv2 : Option Char)
    (y : List Char) (h : noMatchFrom px pv y = true)
    (h2 : wwMatchAt px pv2 y = false) : noMatchFrom px pv2 y = true := by
  cases y with
  | nil => rfl
  | cons c rest =>
    simp only [noMatchFrom, Bool.and_eq_true, Bool.not_eq_true'] at h ⊢
    exact ⟨h2, h.2⟩

theorem ws_token_block (px : List Char) (hpl : '[' ∉ px)
    (hpr : ']' ∉ px) (hrem : px ≠ "REMOVED".toList)
    (z : List Char) (pv : Option Char)
    (hz : noMatchFrom px (some ']') z = true) :
    noMatchFrom px pv (tokenL ++ z) = true := by
  have htok : tokenL = ['[', 'R', 'E', 'M', 'O', 'V', 'E', 'D', ']'] := by decide
  have hrem2 : ('R' :: 'E' :: 'M' :: 'O' :: 'V' :: 'E' :: 'D' :: ']' :: z) =
      "REMOVED".toList ++ (']' :: z) := by
    rw [show "REMOVED".toList = ['R', 'E', 'M', 'O', 'V', 'E', 'D'] from by decide]
    rfl
  have hgoal : tokenL ++ z =
      '[' :: 'R' :: 'E' :: 'M' :: 'O' :: 'V' :: 'E' :: 'D' :: ']' :: z := by
    rw [htok]
    rfl
  rw [hgoal]
  simp only [noMatchFrom, Bool.and_eq_true, Bool.not_eq_true']
  refine ⟨ww_false_head_notmem px pv '[' _ hpl, ?_,
    ww_false_word_word px 'R' 'E' _ (by decide) (by decide),
    ww_false_word_word px 'E' 'M' _ (by decide) (by decide),
    ww_false_word_word px 'M' 'O' _ (by decide) (by decide),
    ww_false_word_word px 'O' 'V' _ (by decide) (by decide),
    ww_false_word_word px 'V' 'E' _ (by decide) (by decide),
    ww_false_word_word px 'E' 'D' _ (by decide) (by decide),
    ww_false_head_notmem px (some 'D') ']' _ hpr, hz⟩
  rw [hrem2]
  exact ww_false_removed px hpr hrem (some '[') z

/-- After a match, the scan cannot match again immediately at the start of
the continuation's output: the token's closing bracket context together with
the match's own trailing-boundary condition rules it out. -/
theorem ws_junction (px : List Char) (hp0 : px ≠ []) (hpl : '[' ∉ px)
    (s₂ : List Char)
    (hab : optWord px.getLast? ≠ optWord s₂.head?) :
    wwMatchAt px (some ']') (wordSubAux px tokenL px.getLast? s₂) = false := by
  cases hW : wwMatchAt px (some ']') (wordSubAux px tokenL px.getLast? s₂) with
  | false => rfl
  | true =>
    exfalso
    obtain ⟨h0, h1, h2, h3⟩ := (wwMatchAt_eq_true_iff _ _ _).mp hW
    obtain ⟨p₂, q₂, ho, hp, hq⟩ := ws_inv px s₂.length px.getLast? s₂ le_rfl
    rw [ho] at h1 h3
    have hpx2 : px <+: p₂ := by
      rcases prefixAppendCases h1 with hA | hB
      · exact hA
      · obtain ⟨r, hr, hrq⟩ := prefix_append_split h1 hB
        cases r with
        | nil =>
          rw [List.append_nil] at hr
          rw [hr]
        | cons r0 r2 =>
          exfalso
          rcases hq with ⟨rfl, _⟩ | ⟨q2, rfl, _⟩
          · simp at hrq
          · rw [List.cons_prefix_cons] at hrq
            exact hpl (by
              rw [hr, ← hrq.1]
              exact List.mem_append.mpr (Or.inr (List.mem_cons_self _ _)))
    have hpxs : px <+: s₂ := hpx2.trans hp
    cases px with
    | nil => exact hp0 rfl
    | cons px0 pxt =>
      cases s₂ with
      | nil => simp at hpxs
      | cons c₂ s₂' =>
        have hhead : px0 = c₂ := (List.cons_prefix_cons.mp hpxs).1
        have hz9 : optWord (some ']') = false := by decide
        rw [List.head?_cons] at h2 hab
        have hword : optWord (some px0) = true := by
          cases hcw : optWord (some px0) with
          | true => rfl
          | false => exact absurd (by rw [hz9, hcw]) h2
        have hc₂w : optWord (some c₂) = true := by rw [← hhead]; exact hword
        have hlast : optWord ((px0 :: pxt).getLast?) = false := by
          cases hcl : optWord ((px0 :: pxt).getLast?) with
          | false => rfl
          | true => exact absurd (by rw [hcl, hc₂w]) hab
        have hnm : wwMatchAt (px0 :: pxt) ((px0 :: pxt).getLast?)
            (c₂ :: s₂') = false := by
          cases hter : wwMatchAt (px0 :: pxt) ((px0 :: pxt).getLast?)
              (c₂ :: s₂') with
          | false => rfl
          | true =>
            exfalso
            have ho2 : wordSubAux (px0 :: pxt) tokenL
                ((px0 :: pxt).getLast?) (c₂ :: s₂') =
                tokenL ++ wordSubAux (px0 :: pxt) tokenL ((px0 :: pxt).getLast?)
                  (s₂'.drop ((px0 :: pxt).length - 1)) := by
              simp [wordSubAux, hter]
            have h1b : (px0 :: pxt) <+:
                tokenL ++ wordSubAux (px0 :: pxt) tokenL ((px0 :: pxt).getLast?)
                  (s₂'.drop ((px0 :: pxt).length - 1)) := by
              rw [← ho2, ho]
              exact h1
            have htokc : tokenL ++ wordSubAux (px0 :: pxt) tokenL
                ((px0 :: pxt).getLast?) (s₂'.drop ((px0 :: pxt).length - 1)) =
                '[' :: ("REMOVED]".toList ++ wordSubAux (px0 :: pxt) tokenL
                  ((px0 :: pxt).getLast?) (s₂'.drop ((px0 :: pxt).length - 1))) := by
              rw [show tokenL = '[' :: "REMOVED]".toList from by decide]
              rfl
            rw [htokc] at h1b
            exact hpl (head_mem_of_pfx (by simp) h1b)
        have hnm4 : optWord ((px0 :: pxt).getLast?) =
            optWord (((c₂ :: s₂').drop (px0 :: pxt).length).head?) := by
          by_contra hx
          have hT : wwMatchAt (px0 :: pxt) ((px0 :: pxt).getLast?)
              (c₂ :: s₂') = true :=
            (wwMatchAt_eq_true_iff _ _ _).mpr ⟨by simp, hpxs, by
              rw [List.head?_cons, hlast, hword]
              exact Bool.false_ne_true, hx⟩
          rw [hT] at hnm
          simp at hnm
        have hRHS : optWord (((p₂ ++ q₂).drop (px0 :: pxt).length).head?)
            = true := by
          cases hcr : optWord (((p₂ ++ q₂).drop (px0 :: pxt).length).head?) with
          | true => rfl
          | false => exact absurd (by rw [hlast, hcr]) h3
        obtain ⟨w, hw⟩ := hpx2
        have hdrop2 : (p₂ ++ q₂).drop (px0 :: pxt).length = w ++ q₂ := by
          rw [← hw, List.append_assoc, List.drop_left]
        rw [hdrop2] at hRHS
        cases w with
        | nil =>
          rcases hq with ⟨rfl, _⟩ | ⟨q2, rfl, _⟩
          · simp [optWord] at hRHS
          · have hopen : optWord (some '[') = false := by decide
            simp only [List.nil_append, List.head?_cons] at hRHS
            rw [hopen] at hRHS
            exact Bool.false_ne_true hRHS
        | cons w0 w2 =>
          obtain ⟨v, hv⟩ := hp
          have hdrop3 : (c₂ :: s₂').drop (px0 :: pxt).length =
              (w0 :: w2) ++ v := by
            rw [← hv, ← hw, List.append_assoc, List.drop_left]
          rw [hdrop3, hlast] at hnm4
          simp only [List.cons_append, List.head?_cons] at hnm4 hRHS
          rw [← hnm4] at hRHS
          exact Bool.false_ne_true hRHS

/-- A position where pass one failed to match still fails on the rewritten
continuation. -/
theorem ws_nonmatch_head (px : List Char) (hpl : '[' ∉ px)
    (prev : Option Char) (c : Char) (rest : List Char)
    (hm : wwMatchAt px prev (c :: rest) = false) :
    wwMatchAt px prev (c :: wordSubAux px tokenL (some c) rest) = false := by
  cases hW : wwMatchAt px prev (c :: wordSubAux px tokenL (some c) rest) with
  | false => rfl
  | true =>
    exfalso
    obtain ⟨h0, h1, h2, h3⟩ := (wwMatchAt_eq_true_iff _ _ _).mp hW
    obtain ⟨p', q', ho, hp, hq⟩ := ws_inv px rest.length (some c) rest le_rfl
    cases px with
    | nil => exact h0 rfl
    | cons px0 pxt =>
      obtain ⟨hhead, hpxt⟩ := List.cons_prefix_cons.mp h1
      subst hhead
      rw [ho] at hpxt h3
      by_cases hcase : pxt <+: p'
      · have hpxt_rest : pxt <+: rest := hcase.trans hp
        have hpxrest : (px0 :: pxt) <+: (px0 :: rest) :=
          List.cons_prefix_cons.mpr ⟨rfl, hpxt_rest⟩
        have hm4 : optWord ((px0 :: pxt).getLast?) =
            optWord (((px0 :: rest).drop (px0 :: pxt).length).head?) := by
          by_contra hx
          have hT : wwMatchAt (px0 :: pxt) prev (px0 :: rest) = true :=
            (wwMatchAt_eq_true_iff _ _ _).mpr ⟨by simp, hpxrest, h2, hx⟩
          rw [hT] at hm
          simp at hm
        have hd1 : (px0 :: rest).drop (px0 :: pxt).length =
            rest.drop pxt.length := by
          simp [List.length_cons, List.drop_succ_cons]
        have hd2 : (px0 :: (p' ++ q')).drop (px0 :: pxt).length =
            (p' ++ q').drop pxt.length := by
          simp [List.length_cons, List.drop_succ_cons]
        rw [hd2] at h3
        rw [hd1] at hm4
        obtain ⟨w, hw⟩ := hcase
        cases w with
        | cons w0 w2 =>
          obtain ⟨v, hv⟩ := hp
          have e1 : (p' ++ q').drop pxt.length = (w0 :: w2) ++ q' := by
            rw [← hw, List.append_assoc, List.drop_left]
          have e2 : rest.drop pxt.length = (w0 :: w2) ++ v := by
            rw [← hv, ← hw, List.append_assoc, List.drop_left]
          rw [e1] at h3
          rw [e2] at hm4
          simp only [List.cons_append, List.head?_cons] at h3 hm4
          exact h3 hm4
        | nil =>
          rw [List.append_nil] at hw
          subst hw
          rcases hq with ⟨rfl, hps⟩ | ⟨q2, rfl, hcorr⟩
          · subst hps
            rw [List.append_nil] at h3
            exact h3 hm4
          · have e1 : (pxt ++ ('[' :: q2)).drop pxt.length = '[' :: q2 :=
              List.drop_left _ _
            rw [e1] at h3
            have hopen : optWord (some '[') = false := by decide
            rw [List.head?_cons, hopen] at h3
            have hlastw : optWord ((px0 :: pxt).getLast?) = true := by
              cases hcl : optWord ((px0 :: pxt).getLast?) with
              | true => rfl
              | false => exact absurd hcl h3
            rw [hlastw] at hm4
            obtain ⟨g0, g1, g2, g3⟩ := (wwMatchAt_eq_true_iff _ _ _).mp hcorr
            cases hrd : rest.drop pxt.length with
            | nil =>
              rw [hrd] at g1
              simp at g1
            | cons d0 d2 =>
              rw [hrd] at g1 hm4
              obtain ⟨hd0, _⟩ := List.cons_prefix_cons.mp g1
              rw [List.head?_cons] at g2 hm4
              rw [← hd0] at hm4
              cases pxt with
              | nil =>
                refine g2 ?_
                rw [show ctxAfter (some px0) ([] : List Char) = some px0 from rfl]
              | cons e0 e2 =>
                refine g2 ?_
                have hctx : ctxAfter (some px0) (e0 :: e2) =
                    (px0 :: e0 :: e2).getLast? := by
                  rw [List.getLast?_cons_cons]
                  unfold ctxAfter
                  cases hgl : (e0 :: e2).getLast? with
                  | none => exact absurd hgl (by simp)
                  | some l => rfl
                rw [hctx, hlastw, hm4]
      · rcases prefixAppendCases hpxt with hA | hB
        · exact hcase hA
        · obtain ⟨r, hr, hrq⟩ := prefix_append_split hpxt hB
          cases r with
          | nil =>
            rw [List.append_nil] at hr
            exact hcase (by rw [hr])
          | cons r0 r2 =>
            rcases hq with ⟨rfl, _⟩ | ⟨q2, rfl, _⟩
            · simp at hrq
            · rw [List.cons_prefix_cons] at hrq
              exact hpl (by
                rw [hr, ← hrq.1]
                exact List.mem_cons_of_mem _ (List.mem_append.mpr
                  (Or.inr (List.mem_cons_self _ _))))

/-- After one `wordSubAux` pass there is no remaining whole-word match of
`px` anywhere in the output (given the same starting context), provided `px`
is bracket-free and is not the word `REMOVED` itself. -/
theorem ws_noMatch (px : List Char) (hp0 : px ≠ []) (hpl : '[' ∉ px)
    (hpr : ']' ∉ px) (hrem : px ≠ "REMOVED".toList) :
    ∀ (n : Nat) (prev : Option Char) (s : List Char), s.length ≤ n →
      noMatchFrom px prev (wordSubAux px tokenL prev s) = true
  | _, _, [], _ => by simp [wordSubAux, noMatchFrom]
  | 0, _, c :: rest, h => by simp at h
  | Nat.succ n, prev, c :: rest, h => by
    have hlen : rest.length ≤ n := by simp only [List.length_cons] at h; omega
    by_cases hm : wwMatchAt px prev (c :: rest) = true
    · simp only [wordSubAux, hm, if_true]
      obtain ⟨hm0, hm1, hm2, hm3⟩ := (wwMatchAt_eq_true_iff _ _ _).mp hm
      have hdrop : (c :: rest).drop px.length = rest.drop (px.length - 1) := by
        cases hpx : px.length with
        | zero => exact absurd (List.length_eq_zero.mp hpx) hm0
        | succ k => simp [List.drop_succ_cons]
      rw [hdrop] at hm3
      have hside := ws_junction px hm0 hpl (rest.drop (px.length - 1)) hm3
      have hrec := ws_noMatch px hp0 hpl hpr hrem n px.getLast?
        (rest.drop (px.length - 1)) (le_trans (by simp) hlen)
      have hswap := noMatchFrom_swap px px.getLast? (some ']') _ hrec hside
      exact ws_token_block px hpl hpr hrem _ prev hswap
    · simp only [Bool.not_eq_true] at hm
      simp only [wordSubAux, hm, Bool.false_eq_true, if_false]
      simp only [noMatchFrom, Bool.and_eq_true, Bool.not_eq_true']
      exact ⟨ws_nonmatch_head px hpl prev c rest hm,
        ws_noMatch px hp0 hpl hpr hrem n (some c) rest hlen⟩

theorem ws_fix (px : List Char) :
    ∀ (n : Nat) (prev : Option Char) (s : List Char), s.length ≤ n →
      noMatchFrom px prev s = true → wordSubAux px tokenL prev s = s
  | _, _, [], _, _ => by simp [wordSubAux]
  | 0, _, c :: rest, h, _ => by simp at h
  | Nat.succ n, prev, c :: rest, h, hnm => by
    have hlen : rest.length ≤ n := by simp only [List.length_cons] at h; omega
    simp only [noMatchFrom, Bool.and_eq_true, Bool.not_eq_true'] at hnm
    simp only [wordSubAux, hnm.1, Bool.false_eq_true, if_false]
    rw [ws_fix px n (some c) rest hlen hnm.2]

/-- C7 counterexample: the target email `REMOVED@x.com` (a well-formed
address whose local part is the redaction word itself) breaks idempotence:
the first pass turns the file content `REMOVED@x.com` into `[[REMOVED]]`,
and the second pass finds a fresh whole-word occurrence of the local part
inside the token and produces `[[[REMOVED]]]`. -/
theorem C7_counterexample :
    targetedClean "REMOVED@x.com".toList
        (targetedClean "REMOVED@x.com".toList "REMOVED@x.com".toList) ≠
      targetedClean "REMOVED@x.com".toList "REMOVED@x.com".toList := by
  have h1 : targetedClean "REMOVED@x.com".toList "REMOVED@x.com".toList =
      "[[REMOVED]]".toList := by
    simp [targetedClean, localPart, replaceAll, wordSub, wordSubAux, wwMatchAt,
      optWord, isWordC, tokenL, List.isPrefixOf, List.takeWhile]
  have h2 : targetedClean "REMOVED@x.com".toList "[[REMOVED]]".toList =
      "[[[REMOVED]]]".toList := by
    simp [targetedClean, localPart, replaceAll, wordSub, wordSubAux, wwMatchAt,
      optWord, isWordC, tokenL, List.isPrefixOf, List.takeWhile]
  rw [h1, h2]
  decide

/-- C7 amended: targeted-email account cleanup is idempotent on file content
for every target email that contains `'@'`, contains no square bracket
(automatic for addresses matching the spec's email pattern), and whose local
part is not the literal redaction word `REMOVED`: running the cleanup twice
yields exactly the content of running it once. -/
theorem C7_targeted_clean_idempotent (t content : List Char)
    (hat : '@' ∈ t) (hbl : '[' ∉ t) (hbr : ']' ∉ t)
    (hrem : localPart t ≠ "REMOVED".toList) :
    targetedClean t (targetedClean t content) = targetedClean t content := by
  have hocc : ¬ t <:+: tokenL := fun h => by
    have h2 := h.subset hat
    revert h2
    decide
  have hfree1 : ¬ t <:+: replaceAll t tokenL content :=
    ra_noOcc t hbl hbr hocc content.length content le_rfl
  have hpxpre : localPart t <+: t := List.takeWhile_prefix _
  have hpl2 : '[' ∉ localPart t := fun h => hbl (hpxpre.subset h)
  have hpr2 : ']' ∉ localPart t := fun h => hbr (hpxpre.subset h)
  by_cases hg : 3 < (localPart t).length
  · have hp0 : localPart t ≠ [] := by
      intro hx
      rw [hx] at hg
      simp at hg
    have hfree_y : ¬ t <:+:
        wordSub (localPart t) tokenL (replaceAll t tokenL content) :=
      ws_keeps_free (localPart t) t hbl hbr hocc _ none _ le_rfl hfree1
    have hnm_y : noMatchFrom (localPart t) none
        (wordSubAux (localPart t) tokenL none
          (replaceAll t tokenL content)) = true :=
      ws_noMatch (localPart t) hp0 hpl2 hpr2 hrem _ none _ le_rfl
    simp only [targetedClean, hg, if_true]
    rw [ra_fix t _ _ le_rfl hfree_y]
    exact ws_fix (localPart t) _ none _ le_rfl hnm_y
  · simp only [targetedClean, hg, if_false]
    rw [ra_fix t _ _ le_rfl (ra_noOcc t hbl hbr hocc _ _ le_rfl)]

/-! ## Witnesses -/

/-- Witness for C1 at a concrete run with a readable manifest and all
manifest write-backs succeeding. -/
theorem C1_witness :
    ((⟨[("a.json", "x")], some []⟩ : CState).manifest.isSome = true) ∧
    (∀ p, envAllOk.manifestWriteOk p = true) ∧
    guardedFrom []
      (cleanupRunEvents envAllOk ⟨[("a.json", "x")], some []⟩ "B"
        [] [] [⟨"a.json", [], []⟩] "" false).2 = true :=
  ⟨by decide, fun _ => rfl,
   C1_backup_before_mutate envAllOk ⟨[("a.json", "x")], some []⟩ "B"
     [] [] [⟨"a.json", [], []⟩] "" false (by decide) (fun _ => rfl)⟩

/-- Witness for C2: one file round-trips through backup and restore. -/
theorem C2_witness :
    fsGet [("f.txt", "hello")] "f.txt" = some "hello" ∧
    envAllOk.copyOk "f.txt" = true ∧
    envAllOk.manifestWriteOk "f.txt" = true ∧
    fsGet (restoreFromBackup
        (backupFile envAllOk ⟨[("f.txt", "hello")], createTimestampedBackupDir true⟩
          "f.txt" "B" none).2.1.fs
        (backupFile envAllOk ⟨[("f.txt", "hello")], createTimestampedBackupDir true⟩
          "f.txt" "B" none).2.1.manifest).2 "f.txt" = some "hello" :=
  ⟨by decide, by decide, by decide,
   (C2_backup_restore_roundtrip envAllOk [("f.txt", "hello")] "f.txt" "hello"
     "B" none (by decide) (by decide) (by decide)).2.2⟩

/-- Witness for C3's general clause at the short username `"eve"`. -/
theorem C3_witness :
    ("eve".toList.length ≤ 4) ∧
    removeAllClean [] ["eve".toList] "hi eve".toList = "hi eve".toList :=
  ⟨by decide,
   (C3_whole_word_redaction).2 "eve".toList "hi eve".toList (by decide)⟩

/-- Witness for C5 on a two-row accounts table with an email column. -/
theorem C5_witness :
    ("a@b.c" ≠ "") ∧
    emailColumns ⟨[⟨"email", "TEXT"⟩],
      [[SQLValue.textV "a@b.c"], [SQLValue.textV "x@y.z"]]⟩ ≠ [] ∧
    (cleanAccountTable ⟨[⟨"email", "TEXT"⟩],
      [[SQLValue.textV "a@b.c"], [SQLValue.textV "x@y.z"]]⟩ "a@b.c").2 =
      (([[SQLValue.textV "a@b.c"], [SQLValue.textV "x@y.z"]] :
          List (List SQLValue)).filter
        (fun r => rowMatchesTarget ⟨[⟨"email", "TEXT"⟩],
          [[SQLValue.textV "a@b.c"], [SQLValue.textV "x@y.z"]]⟩ "a@b.c" r)).length :=
  ⟨by decide, by decide,
   ((C5_account_table_cleanup ⟨[⟨"email", "TEXT"⟩],
       [[SQLValue.textV "a@b.c"], [SQLValue.textV "x@y.z"]]⟩ "a@b.c").1
     (by decide) (by decide)).2.2⟩

/-- Witness for C6 on a one-text-column table. -/
theorem C6_witness :
    (textColIdxs ⟨[⟨"data", "TEXT"⟩],
      [[SQLValue.textV "augment stuff"], [SQLValue.textV "other"]]⟩ ≠ []) ∧
    (deleteRecordsWithKeyword ⟨[⟨"data", "TEXT"⟩],
      [[SQLValue.textV "augment stuff"], [SQLValue.textV "other"]]⟩ "augment").1.rows =
      (([[SQLValue.textV "augment stuff"], [SQLValue.textV "other"]] :
          List (List SQLValue)).filter
        (fun r => !rowHasKeyword ⟨[⟨"data", "TEXT"⟩],
          [[SQLValue.textV "augment stuff"], [SQLValue.textV "other"]]⟩ "augment" r)) :=
  ⟨by decide,
   ((C6_keyword_delete_scope ⟨[⟨"data", "TEXT"⟩],
       [[SQLValue.textV "augment stuff"], [SQLValue.textV "other"]]⟩ "augment").2
     (by decide)).2.1⟩

/-- Witness for C7 at a concrete well-behaved email. -/
theorem C7_witness :
    ('@' ∈ "alice@example.com".toList) ∧
    ('[' ∉ "alice@example.com".toList) ∧
    (localPart "alice@example.com".toList ≠ "REMOVED".toList) ∧
    targetedClean "alice@example.com".toList
        (targetedClean "alice@example.com".toList
          "email: alice@example.com user alice".toList) =
      targetedClean "alice@example.com".toList
        "email: alice@example.com user alice".toList :=
  ⟨by decide, by decide, by decide,
   C7_targeted_clean_idempotent "alice@example.com".toList
     "email: alice@example.com user alice".toList (by decide) (by decide)
     (by decide) (by decide)⟩

/-- Witness for C8 on a one-process list whose process never exits. -/
theorem C8_witness :
    (ProcEntry.mk 7 "VS Code" (ProcState.running none) ∈
      [ProcEntry.mk 7 "VS Code" (ProcState.running none)]) ∧
    exitsWithin gracefulTimeout none = false ∧
    TermOutcome.mk 7 "VS Code" "force_kill_after_timeout" ∈
      (terminateAugmentProcesses [ProcEntry.mk 7 "VS Code" (ProcState.running none)]
        false).1.terminated :=
  ⟨by decide, by decide,
   ((C8_graceful_then_forced [ProcEntry.mk 7 "VS Code" (ProcState.running none)]
     7 "VS Code" none (by decide) (by decide)).1).1⟩

/-- Witness for C9's universal clause at a concrete state. -/
theorem C9_witness :
    fsGet [("x.ini", "v")] "x.ini" = some "v" ∧
    envAllOk.copyOk "x.ini" = true ∧
    (backupFile envAllOk ⟨[("x.ini", "v")], some []⟩ "x.ini" "B" none).1 = true :=
  ⟨by decide, by decide,
   (C9_backup_true_without_manifest_entry).1 envAllOk ⟨[("x.ini", "v")], some []⟩
     "x.ini" "B" none "v" (by decide) (by decide)⟩

/-- Witness for C10's equivalence clause on a one-item manifest. -/
theorem C10_witness :
    (∀ it ∈ [MItem.mk "file" "a.txt" "B/files/a.txt" 1],
      ∀ it2 ∈ [MItem.mk "file" "a.txt" "B/files/a.txt" 1],
        it.source ≠ it2.destination) ∧
    ((restoreFromBackup [("B/files/a.txt", "c")]
        (some [MItem.mk "file" "a.txt" "B/files/a.txt" 1])).1 = true ↔
      ∃ it ∈ [MItem.mk "file" "a.txt" "B/files/a.txt" 1],
        (restoreItem [("B/files/a.txt", "c")] it).2 = true) :=
  ⟨by decide,
   (C10_restore_iff_item_restored).2.2 [("B/files/a.txt", "c")]
     [MItem.mk "file" "a.txt" "B/files/a.txt" 1] (by decide)⟩

end AugmentClean
